import Mathlib

/-!
Verification of the PDF page-content extractor and anchor-text linearizer
core (`utils.py`): geometry primitives, affine transforms, the union-find
image merger, the text sanitizer and the report linearizer.

Coordinates (Python floats) are modelled as exact rationals; Python strings
are sequences of code points, modelled by Lean strings (whose `toList` is
the code-point sequence); Python's fixed-point float formatting is modelled
by exact round-half-to-even over rationals.
-/

namespace Typhoon

/-- `BoundingBox` from `utils.py`: `(x0, y0, x1, y1)` in page-space units. -/
structure BoundingBox where
  x0 : ℚ
  y0 : ℚ
  x1 : ℚ
  y1 : ℚ
deriving DecidableEq, Inhabited

/-- `TextElement` from `utils.py`: a text run and its anchor position. -/
structure TextElement where
  text : String
  x : ℚ
  y : ℚ
deriving DecidableEq, Inhabited

/-- `ImageElement` from `utils.py`: a placed image XObject and its rectangle. -/
structure ImageElement where
  name : String
  bbox : BoundingBox
deriving DecidableEq, Inhabited

/-- `PageReport` from `utils.py`. -/
structure PageReport where
  mediabox : BoundingBox
  text_elements : List TextElement
  image_elements : List ImageElement
deriving DecidableEq, Inhabited

/-- A 6-value affine matrix `[a, b, c, d, e, f]` (the source passes lists of
    six floats; the six entries are named here in index order). -/
structure AffineMatrix where
  a : ℚ
  b : ℚ
  c : ℚ
  d : ℚ
  e : ℚ
  f : ℚ
deriving DecidableEq, Inhabited

/-- `_transform_point` from `utils.py`:
    `x_new = m[0]*x + m[2]*y + m[4]`, `y_new = m[1]*x + m[3]*y + m[5]`. -/
def transformPoint (x y : ℚ) (m : AffineMatrix) : ℚ × ℚ :=
  (m.a * x + m.c * y + m.e, m.b * x + m.d * y + m.f)

/-- `_mult` from `utils.py`: composition of two 6-value affine matrices. -/
def mult (m n : AffineMatrix) : AffineMatrix :=
  { a := m.a * n.a + m.b * n.c
    b := m.a * n.b + m.b * n.d
    c := m.c * n.a + m.d * n.c
    d := m.c * n.b + m.d * n.d
    e := m.e * n.a + m.f * n.c + n.e
    f := m.e * n.b + m.f * n.d + n.f }

/-- The image bounding box computed by `visitor_op` in `_pdf_report`
    (`utils.py:352-354`): transform the unit-square corners `(0,0)` and
    `(1,1)` by the CTM and take the coordinate-wise min/max. -/
def imageBBoxOfCTM (cm : AffineMatrix) : BoundingBox :=
  let p0 := transformPoint 0 0 cm
  let p1 := transformPoint 1 1 cm
  { x0 := min p0.1 p1.1, y0 := min p0.2 p1.2, x1 := max p0.1 p1.1, y1 := max p0.2 p1.2 }

/-- Membership of a point in a bounding box (for stating containment). -/
def containsPoint (b : BoundingBox) (p : ℚ × ℚ) : Prop :=
  b.x0 ≤ p.1 ∧ p.1 ≤ b.x1 ∧ b.y0 ≤ p.2 ∧ p.2 ≤ b.y1

/-! ### Text sanitizer (`_cleanup_element_text`, `_cap_split_string`) -/

/-- The code points CPython's `str.isspace` recognises as whitespace
    (used by `str.strip()`). -/
def pyIsSpace (ch : Char) : Bool :=
  [0x09, 0x0a, 0x0b, 0x0c, 0x0d, 0x1c, 0x1d, 0x1e, 0x1f, 0x20,
   0x85, 0xa0, 0x1680, 0x2000, 0x2001, 0x2002, 0x2003, 0x2004, 0x2005,
   0x2006, 0x2007, 0x2008, 0x2009, 0x200a, 0x2028, 0x2029, 0x202f,
   0x205f, 0x3000].contains ch.toNat

/-- Python `str.strip()`: drop leading and trailing whitespace. -/
def pyStrip (s : String) : String :=
  ⟨((s.toList.dropWhile pyIsSpace).reverse.dropWhile pyIsSpace).reverse⟩

/-- The `TEXT_REPLACEMENTS` table of `_cleanup_element_text`: the
    two-character escape sequence (as its code points) for an escapable
    character, `none` otherwise. -/
def textReplacement (ch : Char) : Option (List Char) :=
  if ch = '[' then some ['\\', '[']
  else if ch = ']' then some ['\\', ']']
  else if ch = '\n' then some ['\\', 'n']
  else if ch = '\r' then some ['\\', 'r']
  else if ch = '\t' then some ['\\', 't']
  else none

/-- The regex substitution in `_cleanup_element_text`: the pattern is an
    alternation of the five single escapable characters, so the substitution
    replaces each occurrence of such a character by its escape sequence. -/
def escapeSpecials (s : String) : String :=
  ⟨s.toList.flatMap (fun ch =>
    match textReplacement ch with
    | some r => r
    | none => [ch])⟩

/-- Python `text.rsplit(" ", 1)[0]`: the part before the last space, or the
    whole string when it has no space. -/
def beforeLastSpace (l : List Char) : List Char :=
  if ' ' ∈ l then ((l.reverse.dropWhile (fun c => c ≠ ' ')).drop 1).reverse else l

/-- Python `text.split(" ", 1)[-1]`: the part after the first space, or the
    whole string when it has no space. -/
def afterFirstSpace (l : List Char) : List Char :=
  if ' ' ∈ l then (l.dropWhile (fun c => c ≠ ' ')).drop 1 else l

/-- `_cap_split_string` from `utils.py`. Its only call site passes
    `max_length = 250`; the `Nat` arithmetic below agrees with the Python
    slice semantics whenever `max_length ≥ 6`. -/
def capSplitString (text : String) (maxLength : ℕ) : String :=
  if text.length ≤ maxLength then text
  else
    let headLength := maxLength / 2 - 3
    let tailLength := headLength
    let l := text.toList
    let headSlice := l.take headLength
    let headPart := beforeLastSpace headSlice
    let head := if headPart = [] then headSlice else headPart
    let tailSlice := l.drop (l.length - tailLength)
    let tailPart := afterFirstSpace tailSlice
    let tail := if tailPart = [] then tailSlice else tailPart
    (⟨head⟩ : String) ++ " ... " ++ (⟨tail⟩ : String)

/-- Modelled from the spec: `ftfy.fix_text`, the external text-repair pass
    called by `_cleanup_element_text`, is third-party code absent from this
    repository; the spec describes it only as "repair mis-decoded Unicode
    (mojibake) using a text-repair pass", so on already well-formed text it
    is modelled as the identity. -/
def ftfyFixText (s : String) : String := s

/-- `_cleanup_element_text` from `utils.py`: repair, strip, escape, cap. -/
def cleanupElementText (element_text : String) : String :=
  capSplitString (escapeSpecials (pyStrip (ftfyFixText element_text))) 250

/-- Whether a string contains an escapable character. -/
def hasEscapable (s : String) : Bool :=
  s.toList.any (fun ch => (textReplacement ch).isSome)

/-! ### CPython fixed-point float formatting, over exact rationals -/

/-- Decimal digits of `n`, most significant first (fuel-based; fuel `n + 1`
    always suffices). -/
def natDigits : ℕ → ℕ → List Char
  | 0, _ => []
  | fuel + 1, n =>
    if n < 10 then [Nat.digitChar n]
    else natDigits fuel (n / 10) ++ [Nat.digitChar (n % 10)]

/-- Decimal rendering of a natural number. -/
def natStr (n : ℕ) : String := ⟨natDigits (n + 1) n⟩

/-- Decimal rendering of an integer. -/
def intStr (i : ℤ) : String := if i < 0 then "-" ++ natStr i.natAbs else natStr i.natAbs

/-- Round `num / den` (`den > 0`) to the nearest integer, ties to even —
    the rounding CPython's fixed-point formatting performs. -/
def roundHalfEvenND (num den : ℤ) : ℤ :=
  let f := Int.fdiv num den
  let r := num - f * den
  if 2 * r < den then f
  else if den < 2 * r then f + 1
  else if f % 2 = 0 then f else f + 1

/-- Python `f"{q:.0f}"` modelled over exact rationals (CPython prints `-0`
    for negative values rounding to zero). -/
def fmt0 (q : ℚ) : String :=
  let n := roundHalfEvenND q.num q.den
  if n = 0 ∧ q.num < 0 then "-0" else intStr n

/-- Python `f"{q:.1f}"` modelled over exact rationals. -/
def fmt1 (q : ℚ) : String :=
  let n := roundHalfEvenND (q.num * 10) q.den
  let sgn := if n < 0 ∨ (n = 0 ∧ q.num < 0) then "-" else ""
  sgn ++ natStr (n.natAbs / 10) ++ "." ++ natStr (n.natAbs % 10)

/-! ### Image merger (`_merge_image_elements`): union-find over indices -/

/-- `bboxes_overlap` from `_merge_image_elements`: the horizontal and
    vertical gaps are both within the tolerance. -/
def bboxesOverlap (b1 b2 : BoundingBox) (tolerance : ℚ) : Bool :=
  let hDist := max 0 (max b1.x0 b2.x0 - min b1.x1 b2.x1)
  let vDist := max 0 (max b1.y0 b2.y0 - min b1.y1 b2.y1)
  decide (hDist ≤ tolerance ∧ vDist ≤ tolerance)

/-- The first `while` loop of `find`: walk parent pointers to the root.
    The loop is fuel-based; fuel `parent.length + 1` always suffices because
    the walk visits distinct in-range indices. -/
def walkRoot (parent : List ℕ) : ℕ → ℕ → ℕ
  | 0, i => i
  | fuel + 1, i =>
    let p := parent.getD i i
    if p = i then i else walkRoot parent fuel p

/-- The second `while` loop of `find` (path compression): repoint every
    node on the walk directly to `root`. -/
def compressPath : List ℕ → ℕ → ℕ → ℕ → List ℕ
  | parent, _, 0, _ => parent
  | parent, root, fuel + 1, i =>
    let p := parent.getD i i
    if p = i then parent else compressPath (parent.set i root) root fuel p

/-- `find` from `_merge_image_elements`: the root of `i` and the
    path-compressed parent list. -/
def ufFind (parent : List ℕ) (i : ℕ) : ℕ × List ℕ :=
  let root := walkRoot parent (parent.length + 1) i
  (root, compressPath parent root (parent.length + 1) i)

/-- `union` from `_merge_image_elements`: attach the root of `i` to the
    root of `j` (both `find` calls compress). -/
def ufUnion (parent : List ℕ) (i j : ℕ) : List ℕ :=
  let fi := ufFind parent i
  let fj := ufFind fi.2 j
  if fi.1 = fj.1 then fj.2 else fj.2.set fi.1 fj.1

/-- The walk from a node to its root, as a relation: `UFPath parent i l r`
    says the parent-pointer walk from `i` reaches the root `r`, visiting
    exactly the nodes in `l` (from `i` to `r` inclusive). -/
inductive UFPath (parent : List ℕ) : ℕ → List ℕ → ℕ → Prop where
  | root (r : ℕ) (h : parent.getD r r = r) : UFPath parent r [r] r
  | step (i : ℕ) (l : List ℕ) (r : ℕ) (h : parent.getD i i ≠ i)
      (hp : UFPath parent (parent.getD i i) l r) : UFPath parent i (i :: l) r

/-- The root of `i` in a parent list (with always-sufficient fuel). -/
def rootOf (parent : List ℕ) (i : ℕ) : ℕ := walkRoot parent (parent.length + 1) i

/-- Well-formedness of a union-find state over `n` nodes: the parent list
    has length `n`, in-range entries stay in range, and every in-range node
    walks to a root. -/
def UFWF (n : ℕ) (parent : List ℕ) : Prop :=
  parent.length = n ∧ (∀ i, i < n → parent.getD i i < n) ∧
    (∀ i, i < n → ∃ l r, UFPath parent i l r)

/-- The index pairs `(i, j)`, `i < j < n`, in the order the double loop at
    `utils.py:282-285` visits them. -/
def pairsUpTo (n : ℕ) : List (ℕ × ℕ) :=
  (List.range n).flatMap
    (fun i => ((List.range n).filter (fun j => decide (i < j))).map (fun j => (i, j)))

/-- One iteration of the union loop: union the pair when the boxes overlap
    within the tolerance. -/
def unionStep (images : List ImageElement) (tolerance : ℚ)
    (parent : List ℕ) (ij : ℕ × ℕ) : List ℕ :=
  if bboxesOverlap (images.getD ij.1 default).bbox (images.getD ij.2 default).bbox tolerance
  then ufUnion parent ij.1 ij.2
  else parent

/-- The union loop of `_merge_image_elements`: union every overlapping pair. -/
def mergedParent (images : List ImageElement) (tolerance : ℚ) : List ℕ :=
  (pairsUpTo images.length).foldl (unionStep images tolerance) (List.range images.length)

/-- One step of the grouping loop at `utils.py:289-291`: append `i` to its
    root's group, keeping groups in insertion order (a Python dict). -/
def addToGroups (groups : List (ℕ × List ℕ)) (root i : ℕ) : List (ℕ × List ℕ) :=
  match groups with
  | [] => [(root, [i])]
  | g :: rest => if g.1 = root then (g.1, g.2 ++ [i]) :: rest else g :: addToGroups rest root i

/-- First-match lookup of a group by key (for reasoning about the grouping
    loop; a Python dict lookup). -/
def groupGet (groups : List (ℕ × List ℕ)) (r : ℕ) : List ℕ :=
  match groups with
  | [] => []
  | g :: rest => if g.1 = r then g.2 else groupGet rest r

/-- The grouping loop of `_merge_image_elements`: for `i = 0, …, n-1`,
    `find` the root of `i` (compressing as it goes) and append `i` to that
    root's group. -/
def buildGroups (parent : List ℕ) (n : ℕ) : List (ℕ × List ℕ) :=
  ((List.range n).foldl
    (fun st i =>
      let f := ufFind st.2 i
      (addToGroups st.1 f.1 i, f.2))
    (([] : List (ℕ × List ℕ)), parent)).1

/-- The per-group merge fold at `utils.py:294-312`: start from the first
    member and fold in the rest, taking the envelope bounding box and
    joining names with `+`. -/
def mergeGroup (images : List ImageElement) (indices : List ℕ) : ImageElement :=
  match indices with
  | [] => default
  | i0 :: rest =>
    rest.foldl
      (fun acc idx =>
        let bbox := (images.getD idx default).bbox
        { name := acc.name ++ "+" ++ (images.getD idx default).name
          bbox := { x0 := min acc.bbox.x0 bbox.x0, y0 := min acc.bbox.y0 bbox.y0,
                    x1 := max acc.bbox.x1 bbox.x1, y1 := max acc.bbox.y1 bbox.y1 } })
      (images.getD i0 default)

/-- `_merge_image_elements` from `utils.py`. -/
def mergeImageElements (images : List ImageElement) (tolerance : ℚ) : List ImageElement :=
  (buildGroups (mergedParent images tolerance) images.length).map
    (fun g => mergeGroup images g.2)

/-- The clusters of `_merge_image_elements`: the member-index lists of the
    groups, in group production order. -/
def clusters (images : List ImageElement) (tolerance : ℚ) : List (List ℕ) :=
  (buildGroups (mergedParent images tolerance) images.length).map (fun g => g.2)

/-- One chain link: `i` and `j` are in-range indices whose boxes overlap
    within the tolerance. -/
def overlapRel (images : List ImageElement) (tolerance : ℚ) (i j : ℕ) : Prop :=
  i < images.length ∧ j < images.length ∧
    bboxesOverlap (images.getD i default).bbox (images.getD j default).bbox tolerance = true

/-- Chain connectivity: the equivalence closure of single overlap links. -/
def Connected (images : List ImageElement) (tolerance : ℚ) : ℕ → ℕ → Prop :=
  Relation.EqvGen (overlapRel images tolerance)

/-! ### Report linearizer (`_linearize_pdf_report`) -/

/-- The header line of `_linearize_pdf_report` (`utils.py:125`). -/
def headerLine (report : PageReport) : String :=
  "Page dimensions: " ++ fmt1 report.mediabox.x1 ++ "x" ++ fmt1 report.mediabox.y1 ++ "\n"

/-- The candidate line for a merged image element (`utils.py:135`). -/
def imageLine (e : ImageElement) : String :=
  "[Image " ++ fmt0 e.bbox.x0 ++ "x" ++ fmt0 e.bbox.y0 ++ " to " ++
    fmt0 e.bbox.x1 ++ "x" ++ fmt0 e.bbox.y1 ++ "]\n"

/-- The candidate line for a non-blank text element (`utils.py:145-146`). -/
def textLine (e : TextElement) : String :=
  "[" ++ fmt0 e.x ++ "x" ++ fmt0 e.y ++ "]" ++ cleanupElementText e.text ++ "\n"

/-- The filter at `utils.py:142`: keep a text element unless its stripped
    text is empty. -/
def isNonBlank (e : TextElement) : Bool := (pyStrip e.text).length != 0

/-- An element of the linearizer's `all_elements` list: a merged image or a
    non-blank text element. -/
inductive Elem where
  | img (e : ImageElement)
  | txt (e : TextElement)
deriving DecidableEq

/-- The candidate line of an element. -/
def elemLine : Elem → String
  | .img e => imageLine e
  | .txt e => textLine e

/-- The sort position of an element (`utils.py:152, 155`). -/
def elemPos : Elem → ℚ × ℚ
  | .img e => (e.bbox.x0, e.bbox.y0)
  | .txt e => (e.x, e.y)

/-- One entry of the `all_elements` list: the element, its line and its
    position; `eid` models the CPython object identity `id(elem)` — every
    entry is a distinct freshly-built object, so its list index serves. -/
structure LinEntry where
  eid : ℕ
  elem : Elem
  line : String
  pos : ℚ × ℚ
deriving DecidableEq

/-- The element values appearing in `all_elements`, in order: merged images
    first (production order), then non-blank texts (extraction order). -/
def elemValues (report : PageReport) : List Elem :=
  (mergeImageElements report.image_elements (Rat.divInt 1 2)).map Elem.img ++
    (report.text_elements.filter (fun e => isNonBlank e)).map Elem.txt

/-- The `all_elements` list built at `utils.py:133-156`. -/
def allEntries (report : PageReport) : List LinEntry :=
  ((elemValues report).enum).map (fun p => ⟨p.1, p.2, elemLine p.2, elemPos p.2⟩)

/-- Sum of the line lengths of a list of entries. -/
def linesLength (l : List LinEntry) : ℕ := (l.map (fun en => en.line.length)).sum

/-- `total_length` at `utils.py:159`. -/
def totalLength (report : PageReport) : ℕ :=
  (headerLine report).length + linesLength (allEntries report)

/-- Python `min(x :: xs, key=f)`: the first element attaining the minimum. -/
def minByQ (f : α → ℚ) (x : α) (xs : List α) : α :=
  xs.foldl (fun acc y => if f y < f acc then y else acc) x

/-- Python `max(x :: xs, key=f)`: the first element attaining the maximum. -/
def maxByQ (f : α → ℚ) (x : α) (xs : List α) : α :=
  xs.foldl (fun acc y => if f acc < f y then y else acc) x

/-- The `edge_elements` set built at `utils.py:167-184`, as a list (the
    code only tests membership, by element value). -/
def edgeCandidates (report : PageReport) : List Elem :=
  (match mergeImageElements report.image_elements (Rat.divInt 1 2) with
   | [] => []
   | x :: xs =>
     [Elem.img (minByQ (fun e => e.bbox.x0) x xs),
      Elem.img (maxByQ (fun e => e.bbox.x1) x xs),
      Elem.img (minByQ (fun e => e.bbox.y0) x xs),
      Elem.img (maxByQ (fun e => e.bbox.y1) x xs)]) ++
  (match report.text_elements.filter (fun e => isNonBlank e) with
   | [] => []
   | t :: ts =>
     [Elem.txt (minByQ (fun e => e.x) t ts),
      Elem.txt (maxByQ (fun e => e.x) t ts),
      Elem.txt (minByQ (fun e => e.y) t ts),
      Elem.txt (maxByQ (fun e => e.y) t ts)])

/-- The edge-selection loop at `utils.py:191-194`: entries whose element
    value is in the edge set (each entry is a distinct object visited once,
    so the `id`-based dedup keeps every such entry). -/
def selectedEdges (report : PageReport) : List LinEntry :=
  (allEntries report).filter (fun en => (edgeCandidates report).contains en.elem)

/-- The non-edge pool at `utils.py:201`. -/
def remainingEntries (report : PageReport) : List LinEntry :=
  (allEntries report).filter (fun en => !(edgeCandidates report).contains en.elem)

/-- The fill loop at `utils.py:210-215`: append entries while the running
    total stays within `max_length`; stop at the first overflow. -/
def greedyFill (maxLength : ℤ) : ℕ → List LinEntry → List LinEntry
  | _, [] => []
  | cur, en :: rest =>
    if maxLength < (cur : ℤ) + en.line.length then []
    else en :: greedyFill maxLength (cur + en.line.length) rest

/-- The final sort at `utils.py:218`: stable sort by ascending `(x, y)`
    position (Python `list.sort` is stable, as is `List.mergeSort`). -/
def sortByPos (l : List LinEntry) : List LinEntry :=
  l.mergeSort (fun p q => decide (p.pos.1 < q.pos.1 ∨ (p.pos.1 = q.pos.1 ∧ p.pos.2 ≤ q.pos.2)))

/-- The `result += s` accumulation loop. -/
def appendLines (s : String) (l : List LinEntry) : String :=
  l.foldl (fun acc en => acc ++ en.line) s

/-- `_linearize_pdf_report` from `utils.py`. `shuffle` stands for
    `random.shuffle` at `utils.py:207`: an arbitrary reordering function
    (theorems quantify over it). The unused `_remaining_length` of the
    source is omitted. -/
def linearizePdfReport (shuffle : List LinEntry → List LinEntry)
    (report : PageReport) (maxLength : ℤ) : String :=
  let result := headerLine report
  if maxLength < 20 then result
  else
    let all := allEntries report
    if (result.length + linesLength all : ℤ) ≤ maxLength then appendLines result all
    else
      let selected := selectedEdges report
      let currentLength := result.length + linesLength selected
      let filled := greedyFill maxLength currentLength (shuffle (remainingEntries report))
      appendLines result (sortByPos (selected ++ filled))

/-- `get_anchor_text`'s engine argument (`utils.py:364-366`). -/
inductive PdfEngine where
  | pdftotext
  | pdfium
  | pypdf
  | topcoherency
  | pdfreport
deriving DecidableEq

/-- The exceptions `get_anchor_text` can raise. -/
inductive AnchorError where
  | assertionError (msg : String)
  | notImplementedError (msg : String)
deriving DecidableEq

/-- `get_anchor_text` from `utils.py`. `pdfReport` stands for `_pdf_report`
    (which reads the PDF from disk): the extraction is modelled as a
    function from path and page to the extracted report, passed in as a
    parameter; `shuffle` is the linearizer's shuffle as above. -/
def getAnchorText (pdfReport : String → ℤ → PageReport)
    (shuffle : List LinEntry → List LinEntry)
    (local_pdf_path : String) (page : ℤ) (pdf_engine : PdfEngine)
    (target_length : ℤ) : Except AnchorError String :=
  if page ≤ 0 then .error (.assertionError "Pages are 1-indexed in pdf-land")
  else if pdf_engine = PdfEngine.pdfreport then
    .ok (linearizePdfReport shuffle (pdfReport local_pdf_path page) target_length)
  else .error (.notImplementedError "Unknown engine")

/-- `s` occurs as a contiguous substring of `t` (by code points). -/
def strInfix (s t : String) : Prop := s.toList <:+: t.toList

instance (b : BoundingBox) (p : ℚ × ℚ) : Decidable (containsPoint b p) :=
  inferInstanceAs (Decidable (_ ∧ _ ∧ _ ∧ _))

instance (s t : String) : Decidable (strInfix s t) :=
  inferInstanceAs (Decidable (_ <:+: _))

/-- Concatenation of a list of strings (for stating output shapes). -/
def strJoin : List String → String
  | [] => ""
  | s :: rest => s ++ strJoin rest

/-- The minimum of a nonempty list of rationals (0 on the empty list). -/
def minQl (l : List ℚ) : ℚ :=
  match l with
  | [] => 0
  | x :: xs => xs.foldl min x

/-- The maximum of a nonempty list of rationals (0 on the empty list). -/
def maxQl (l : List ℚ) : ℚ :=
  match l with
  | [] => 0
  | x :: xs => xs.foldl max x

/-- Joining a list of names with `+` (for stating the merged-name shape). -/
def joinPlus : List String → String
  | [] => ""
  | [x] => x
  | x :: y :: rest => x ++ "+" ++ joinPlus (y :: rest)

/-- The page of the spec's concrete scenario: mediabox `(0,0,612,792)`, a
    single text element `("Hello", 100, 200)`, no images. -/
def helloReport : PageReport := ⟨⟨0, 0, 612, 792⟩, [⟨"Hello", 100, 200⟩], []⟩

end Typhoon

namespace Typhoon

/-! ### Basic helper lemmas -/

theorem length_mkString (l : List Char) : (⟨l⟩ : String).length = l.length := rfl

theorem toList_mkString (l : List Char) : (⟨l⟩ : String).toList = l := rfl

theorem toList_append (s t : String) : (s ++ t).toList = s.toList ++ t.toList := by
  cases s; cases t; rfl

theorem affine_between (a e u : ℚ) (h0 : 0 ≤ u) (h1 : u ≤ 1) :
    min e (a + e) ≤ a * u + e ∧ a * u + e ≤ max e (a + e) := by
  rcases le_total 0 a with ha | ha
  · exact ⟨le_trans (min_le_left _ _) (by nlinarith), le_trans (by nlinarith) (le_max_right _ _)⟩
  · exact ⟨le_trans (min_le_right _ _) (by nlinarith), le_trans (by nlinarith) (le_max_left _ _)⟩

/-! ### C5: affine composition -/

/-- C5: for all 6-value affine matrices `m` and `n` and every point
    `(x, y)`, transforming by the composed matrix `_mult(m, n)` equals
    transforming by `m` and then transforming the result by `n`. -/
theorem c5_mult_composes (m n : AffineMatrix) (x y : ℚ) :
    transformPoint x y (mult m n) =
      transformPoint (transformPoint x y m).1 (transformPoint x y m).2 n := by
  simp only [transformPoint, mult, Prod.mk.injEq]
  constructor <;> ring

/-! ### C6: image bounding box from two transformed corners -/

/-- C6 counterexample: for the shear matrix `[1, 0, -1, 1, 0, 0]`, the
    unit-square point `(1, 0)` lies in `[0,1]×[0,1]` but its image is not
    contained in the bounding box computed from the two transformed corners
    `(0,0)` and `(1,1)`; min/max over those two corners does not bound a
    rotated or sheared unit square. -/
theorem c6_counterexample :
    (0 : ℚ) ≤ 1 ∧ (1 : ℚ) ≤ 1 ∧ (0 : ℚ) ≤ 0 ∧ (0 : ℚ) ≤ 1 ∧
      ¬ containsPoint (imageBBoxOfCTM ⟨1, 0, -1, 1, 0, 0⟩)
          (transformPoint 1 0 ⟨1, 0, -1, 1, 0, 0⟩) :=
  of_decide_eq_true (by with_unfolding_all rfl)

/-- C6 (amended): for every CTM with zero off-diagonal linear part
    (`b = c = 0`: axis-aligned scaling and flips with translation — no
    rotation or shear), the bounding box the extractor records from the two
    transformed corners `(0,0)` and `(1,1)` contains the image of every
    point of the unit square; min/max over the two corners correctly
    handles flips (negative scales). -/
theorem c6_amended_contains (a d e f u v : ℚ)
    (hu0 : 0 ≤ u) (hu1 : u ≤ 1) (hv0 : 0 ≤ v) (hv1 : v ≤ 1) :
    containsPoint (imageBBoxOfCTM ⟨a, 0, 0, d, e, f⟩)
      (transformPoint u v ⟨a, 0, 0, d, e, f⟩) := by
  have hx := affine_between a e u hu0 hu1
  have hy := affine_between d f v hv0 hv1
  simp only [containsPoint, imageBBoxOfCTM, transformPoint, mul_zero, zero_mul,
    mul_one, zero_add, add_zero] at hx hy ⊢
  exact ⟨hx.1, hx.2, hy.1, hy.2⟩

/-- Witness for the amended C6 theorem at a concrete flip matrix and an
    interior point. -/
theorem c6_amended_contains_witness :
    containsPoint (imageBBoxOfCTM ⟨-2, 0, 0, 3, 5, 7⟩)
      (transformPoint (Rat.divInt 1 2) (Rat.divInt 1 4) ⟨-2, 0, 0, 3, 5, 7⟩) :=
  c6_amended_contains (-2) 3 5 7 (Rat.divInt 1 2) (Rat.divInt 1 4)
    (by decide) (by decide) (by decide) (by decide)

/-! ### C10: `get_anchor_text` engine and page handling -/

/-- C10: `get_anchor_text` returns normally only for the `pdfreport` engine
    with a positive page number: pages `≤ 0` raise `AssertionError` before
    any processing, every other engine raises `NotImplementedError` without
    attempting extraction, and `pdfreport` with a positive page returns the
    linearized report. -/
theorem c10_getAnchorText_spec (rep : String → ℤ → PageReport)
    (shuffle : List LinEntry → List LinEntry) (path : String) (page : ℤ)
    (engine : PdfEngine) (tl : ℤ) :
    (page ≤ 0 →
      getAnchorText rep shuffle path page engine tl =
        .error (.assertionError "Pages are 1-indexed in pdf-land")) ∧
    (0 < page → engine ≠ PdfEngine.pdfreport →
      getAnchorText rep shuffle path page engine tl =
        .error (.notImplementedError "Unknown engine")) ∧
    (0 < page → engine = PdfEngine.pdfreport →
      getAnchorText rep shuffle path page engine tl =
        .ok (linearizePdfReport shuffle (rep path page) tl)) ∧
    (∀ s, getAnchorText rep shuffle path page engine tl = .ok s →
      0 < page ∧ engine = PdfEngine.pdfreport) := by
  refine ⟨?_, ?_, ?_, ?_⟩
  · intro h
    simp [getAnchorText, h]
  · intro h1 h2
    have h : ¬ page ≤ 0 := by omega
    simp [getAnchorText, h, h2]
  · intro h1 h2
    have h : ¬ page ≤ 0 := by omega
    simp [getAnchorText, h, h2]
  · intro s h
    rcases le_or_lt page 0 with hp | hp
    · simp [getAnchorText, hp] at h
    · by_cases he : engine = PdfEngine.pdfreport
      · exact ⟨hp, he⟩
      · have hnp : ¬ page ≤ 0 := by omega
        simp [getAnchorText, hnp, he] at h

/-- Witness for C10 at concrete inputs: a non-positive page asserts, a
    non-`pdfreport` engine is unimplemented, and `pdfreport` on page 1
    returns the linearized report. -/
theorem c10_getAnchorText_witness :
    getAnchorText (fun _ _ => helloReport) (fun l => l) "doc.pdf" 0 .pdfreport 4000 =
        .error (.assertionError "Pages are 1-indexed in pdf-land") ∧
    getAnchorText (fun _ _ => helloReport) (fun l => l) "doc.pdf" 1 .pdftotext 4000 =
        .error (.notImplementedError "Unknown engine") ∧
    getAnchorText (fun _ _ => helloReport) (fun l => l) "doc.pdf" 1 .pdfreport 4000 =
        .ok (linearizePdfReport (fun l => l) helloReport 4000) :=
  ⟨(c10_getAnchorText_spec (fun _ _ => helloReport) (fun l => l) "doc.pdf" 0 .pdfreport 4000).1
      (by decide),
   (c10_getAnchorText_spec (fun _ _ => helloReport) (fun l => l) "doc.pdf" 1 .pdftotext 4000).2.1
      (by decide) (by decide),
   (c10_getAnchorText_spec (fun _ _ => helloReport) (fun l => l) "doc.pdf" 1 .pdfreport 4000).2.2.1
      (by decide) rfl⟩

end Typhoon

namespace Typhoon

/-! ### Linearizer output helpers -/

theorem appendLines_nil (s : String) : appendLines s [] = s := rfl

theorem appendLines_cons (s : String) (en : LinEntry) (l : List LinEntry) :
    appendLines s (en :: l) = appendLines (s ++ en.line) l := rfl

theorem appendLines_eq (l : List LinEntry) : ∀ s, appendLines s l = s ++ appendLines "" l := by
  induction l with
  | nil => intro s; simp [appendLines_nil]
  | cons e t ih =>
    intro s
    rw [appendLines_cons, appendLines_cons, ih (s ++ e.line), ih ("" ++ e.line)]
    simp [String.append_assoc]

theorem linesLength_nil : linesLength [] = 0 := rfl

theorem linesLength_cons (en : LinEntry) (l : List LinEntry) :
    linesLength (en :: l) = en.line.length + linesLength l := by
  simp [linesLength]

theorem linesLength_append (a b : List LinEntry) :
    linesLength (a ++ b) = linesLength a + linesLength b := by
  simp [linesLength]

theorem length_appendLines (l : List LinEntry) :
    ∀ s, (appendLines s l).length = s.length + linesLength l := by
  induction l with
  | nil => intro s; simp [appendLines_nil, linesLength_nil]
  | cons e t ih =>
    intro s
    rw [appendLines_cons, ih, linesLength_cons, String.length_append]
    omega

theorem appendLines_append (s : String) (a b : List LinEntry) :
    appendLines s (a ++ b) = appendLines (appendLines s a) b :=
  List.foldl_append _ _ _ _

theorem strInfix_appendLines (en : LinEntry) (l : List LinEntry) (s : String)
    (h : en ∈ l) : strInfix en.line (appendLines s l) := by
  obtain ⟨l1, l2, rfl⟩ := List.append_of_mem h
  rw [appendLines_append, appendLines_cons, appendLines_eq l2]
  refine ⟨(appendLines s l1).toList, (appendLines "" l2).toList, ?_⟩
  rw [← toList_append, ← toList_append]

theorem mem_sortByPos (en : LinEntry) (l : List LinEntry) :
    en ∈ sortByPos l ↔ en ∈ l :=
  (List.mergeSort_perm l _).mem_iff

theorem linesLength_sortByPos (l : List LinEntry) :
    linesLength (sortByPos l) = linesLength l := by
  unfold linesLength
  exact List.Perm.sum_eq (List.Perm.map _ (List.mergeSort_perm l _))

/-- The length of a rendered natural number is at least one digit. -/
theorem natStr_length_pos (n : ℕ) : 1 ≤ (natStr n).length := by
  unfold natStr natDigits
  by_cases h : n < 10 <;> simp [h, length_mkString]

/-- A `.1f`-formatted value has at least three characters (`d.d`). -/
theorem fmt1_length_ge (q : ℚ) : 3 ≤ (fmt1 q).length := by
  unfold fmt1
  have h1 := natStr_length_pos ((roundHalfEvenND (q.num * 10) q.den).natAbs / 10)
  have h2 := natStr_length_pos ((roundHalfEvenND (q.num * 10) q.den).natAbs % 10)
  have hd : ("." : String).length = 1 := by decide
  simp only [String.length_append]
  omega

/-- The header line has at least 25 characters, so a report that fits the
    budget forces `max_length ≥ 25 > 20`. -/
theorem headerLine_length_ge (report : PageReport) : 25 ≤ (headerLine report).length := by
  unfold headerLine
  have h1 := fmt1_length_ge report.mediabox.x1
  have h2 := fmt1_length_ge report.mediabox.y1
  simp only [String.length_append]
  have hp : ("Page dimensions: " : String).length = 17 := by decide
  have hx : ("x" : String).length = 1 := by decide
  have hn : ("\n" : String).length = 1 := by decide
  omega

/-! ### C9: the header prefix and the short-budget early return -/

/-- C9: the linearizer is total and its output always starts with the
    header line `Page dimensions: {x1:.1f}x{y1:.1f}\n`; whenever
    `max_length < 20` the output is exactly that header line, however many
    elements the report contains. -/
theorem c9_header (shuffle : List LinEntry → List LinEntry)
    (report : PageReport) (maxLength : ℤ) :
    (∃ rest, linearizePdfReport shuffle report maxLength = headerLine report ++ rest) ∧
    (maxLength < 20 → linearizePdfReport shuffle report maxLength = headerLine report) := by
  constructor
  · unfold linearizePdfReport
    by_cases h : maxLength < 20
    · simp only [if_pos h]
      exact ⟨"", (String.append_empty _).symm⟩
    · simp only [if_neg h]
      split
      · exact ⟨_, appendLines_eq _ _⟩
      · exact ⟨_, appendLines_eq _ _⟩
  · intro h
    simp [linearizePdfReport, h]

/-- Witness for C9: on the Hello page with `max_length = 5` the output is
    exactly the header line. -/
theorem c9_header_witness :
    linearizePdfReport (fun l => l) helloReport 5 = headerLine helloReport :=
  (c9_header (fun l => l) helloReport 5).2 (by decide)

end Typhoon

namespace Typhoon

/-! ### C1: output length -/

theorem greedyFill_bound (m : ℤ) (l : List LinEntry) :
    ∀ cur : ℕ, ((cur : ℤ) + linesLength (greedyFill m cur l) : ℤ) ≤ max (cur : ℤ) m := by
  induction l with
  | nil =>
    intro cur
    simp only [greedyFill, linesLength_nil]
    omega
  | cons e t ih =>
    intro cur
    unfold greedyFill
    split
    · simp only [linesLength_nil]
      omega
    · rename_i h
      rw [linesLength_cons]
      have hle := ih (cur + e.line.length)
      push_cast at hle ⊢
      omega

/-- C1 counterexample: with `max_length = 0` the linearizer still returns
    the 29-character header line for the Hello page, so the output exceeds
    `max_length`. -/
theorem c1_counterexample :
    ¬ (((linearizePdfReport (fun l => l) helloReport 0).length : ℤ) ≤ 0) :=
  of_decide_eq_true (by with_unfolding_all rfl)

/-- C1 (amended): for every shuffle outcome, report and `max_length`, the
    linearizer output has length at most the maximum of `max_length` and
    the header length plus the total length of the edge-element lines (the
    header is always emitted, and edge lines are included unconditionally
    in the over-budget branch; everything else respects the budget). -/
theorem c1_length_bound (shuffle : List LinEntry → List LinEntry)
    (report : PageReport) (maxLength : ℤ) :
    ((linearizePdfReport shuffle report maxLength).length : ℤ) ≤
      max maxLength
        ((headerLine report).length + linesLength (selectedEdges report) : ℤ) := by
  simp only [linearizePdfReport]
  split
  · omega
  · split
    · rename_i h
      rw [length_appendLines]
      push_cast at h ⊢
      omega
    · rw [length_appendLines, linesLength_sortByPos, linesLength_append]
      have hg := greedyFill_bound maxLength (shuffle (remainingEntries report))
        ((headerLine report).length + linesLength (selectedEdges report))
      push_cast at hg ⊢
      omega

/-! ### C2: edge elements survive the budget-fit regime -/

theorem foldl_pick_mem {α : Type} (f : α → α → α) (hf : ∀ a b, f a b = a ∨ f a b = b) :
    ∀ (l : List α) (a : α), l.foldl f a ∈ a :: l := by
  intro l
  induction l with
  | nil => intro a; simp
  | cons b t ih =>
    intro a
    have htail := ih (f a b)
    simp only [List.foldl_cons, List.mem_cons] at htail ⊢
    rcases htail with heq | hmem
    · rcases hf a b with h2 | h2
      · exact Or.inl (heq.trans h2)
      · exact Or.inr (Or.inl (heq.trans h2))
    · exact Or.inr (Or.inr hmem)

theorem minByQ_mem {α : Type} (f : α → ℚ) (x : α) (xs : List α) :
    minByQ f x xs ∈ x :: xs := by
  unfold minByQ
  exact foldl_pick_mem _ (fun a b => by split <;> simp) xs x

theorem maxByQ_mem {α : Type} (f : α → ℚ) (x : α) (xs : List α) :
    maxByQ f x xs ∈ x :: xs := by
  unfold maxByQ
  exact foldl_pick_mem _ (fun a b => by split <;> simp) xs x

set_option maxHeartbeats 1000000 in
theorem edge_sub_elemValues (report : PageReport) :
    ∀ el ∈ edgeCandidates report, el ∈ elemValues report := by
  intro el h
  unfold edgeCandidates at h
  rw [List.mem_append] at h
  unfold elemValues
  rw [List.mem_append]
  rcases h with h | h
  · left
    revert h
    generalize mergeImageElements report.image_elements (Rat.divInt 1 2) = imgs
    cases imgs with
    | nil => intro h; simp at h
    | cons x xs =>
      intro h
      simp only [List.mem_cons, List.not_mem_nil, or_false] at h
      rcases h with h | h | h | h <;> rw [h] <;>
        exact List.mem_map_of_mem Elem.img (by first
          | exact minByQ_mem _ x xs
          | exact maxByQ_mem _ x xs)
  · right
    revert h
    generalize report.text_elements.filter (fun e => isNonBlank e) = txts
    cases txts with
    | nil => intro h; simp at h
    | cons t ts =>
      intro h
      simp only [List.mem_cons, List.not_mem_nil, or_false] at h
      rcases h with h | h | h | h <;> rw [h] <;>
        exact List.mem_map_of_mem Elem.txt (by first
          | exact minByQ_mem _ t ts
          | exact maxByQ_mem _ t ts)

theorem mem_entries_of_mem (l : List Elem) (el : Elem) (h : el ∈ l) :
    ∀ n, ∃ en ∈ (List.enumFrom n l).map
        (fun p => (⟨p.1, p.2, elemLine p.2, elemPos p.2⟩ : LinEntry)),
      en.elem = el ∧ en.line = elemLine el := by
  induction l with
  | nil => cases h
  | cons a t ih =>
    intro n
    rcases List.mem_cons.mp h with rfl | hmem
    · exact ⟨⟨n, el, elemLine el, elemPos el⟩, by simp [List.enumFrom], rfl, rfl⟩
    · obtain ⟨en, hen, he⟩ := ih hmem (n + 1)
      exact ⟨en, by simp only [List.enumFrom, List.map_cons, List.mem_cons]; right; exact hen, he⟩

theorem exists_entry (report : PageReport) (el : Elem) (h : el ∈ elemValues report) :
    ∃ en ∈ allEntries report, en.elem = el ∧ en.line = elemLine el := by
  have := mem_entries_of_mem (elemValues report) el h 0
  exact this

/-- C2 counterexample: for `max_length = 0` the Hello page is over budget
    (header plus lines exceed 0), the single text element is an edge
    element, yet its line does not occur in the output (which is only the
    header): the claim needs `max_length ≥ 20`. -/
theorem c2_counterexample :
    (0 : ℤ) < (totalLength helloReport : ℤ) ∧
      Elem.txt ⟨"Hello", 100, 200⟩ ∈ edgeCandidates helloReport ∧
      ¬ strInfix (elemLine (Elem.txt ⟨"Hello", 100, 200⟩))
          (linearizePdfReport (fun l => l) helloReport 0) :=
  of_decide_eq_true (by with_unfolding_all rfl)

/-- C2 (amended): whenever `max_length ≥ 20` and the header plus all
    candidate lines exceed `max_length`, then for every outcome of the
    random shuffle the output contains the line of every edge element (the
    first merged image attaining min `x0`, max `x1`, min `y0`, max `y1`,
    and the first non-blank text attaining min/max `x` and `y`). -/
theorem c2_edges_in_output (shuffle : List LinEntry → List LinEntry)
    (report : PageReport) (maxLength : ℤ)
    (h20 : 20 ≤ maxLength) (hover : maxLength < (totalLength report : ℤ)) :
    ∀ el ∈ edgeCandidates report,
      strInfix (elemLine el) (linearizePdfReport shuffle report maxLength) := by
  intro el hel
  have hlt : ¬ maxLength < 20 := by omega
  have hfit : ¬ (((headerLine report).length + linesLength (allEntries report) : ℤ) ≤ maxLength) := by
    unfold totalLength at hover
    push_cast at hover ⊢
    omega
  simp only [linearizePdfReport, if_neg hlt, if_neg hfit]
  obtain ⟨en, hmem, helem, hline⟩ := exists_entry report el (edge_sub_elemValues report el hel)
  have hsel : en ∈ selectedEdges report := by
    unfold selectedEdges
    refine List.mem_filter.mpr ⟨hmem, ?_⟩
    rw [helem]
    exact List.elem_iff.mpr hel
  rw [← hline]
  exact strInfix_appendLines en _ _
    ((mem_sortByPos en _).mpr (List.mem_append_left _ hsel))

/-- Witness for the amended C2 theorem: the Hello page with
    `max_length = 20` is over budget and the output contains the edge text
    line. -/
theorem c2_edges_in_output_witness :
    strInfix (elemLine (Elem.txt ⟨"Hello", 100, 200⟩))
      (linearizePdfReport (fun l => l) helloReport 20) :=
  c2_edges_in_output (fun l => l) helloReport 20 (by decide)
    (of_decide_eq_true (by with_unfolding_all rfl))
    (Elem.txt ⟨"Hello", 100, 200⟩)
    (of_decide_eq_true (by with_unfolding_all rfl))

end Typhoon

namespace Typhoon

/-! ### C3: the everything-fits branch keeps original order -/

theorem strJoin_append (a b : List String) :
    strJoin (a ++ b) = strJoin a ++ strJoin b := by
  induction a with
  | nil => simp [strJoin]
  | cons s t ih => simp [strJoin, ih, String.append_assoc]

theorem appendLines_join (l : List LinEntry) :
    ∀ s, appendLines s l = s ++ strJoin (l.map (fun en => en.line)) := by
  induction l with
  | nil => intro s; simp [appendLines_nil, strJoin]
  | cons e t ih =>
    intro s
    rw [appendLines_cons, ih, List.map_cons]
    simp [strJoin, String.append_assoc]

theorem allEntries_lines (report : PageReport) :
    (allEntries report).map (fun en => en.line) = (elemValues report).map elemLine := by
  unfold allEntries
  rw [List.map_map]
  have : ((fun en => en.line) ∘ fun p : ℕ × Elem =>
      (⟨p.1, p.2, elemLine p.2, elemPos p.2⟩ : LinEntry)) = elemLine ∘ Prod.snd := rfl
  rw [this, ← List.map_map]
  rw [List.enum_map_snd]

/-- C3: if the header plus every candidate line fits within `max_length`,
    the output is the header followed by all image lines in merged
    production order and then all text lines in extraction order, with no
    positional sort; in particular the Hello page with `max_length = 4000`
    yields exactly `"Page dimensions: 612.0x792.0\n[100x200]Hello\n"`. -/
theorem c3_fits_order :
    (∀ (shuffle : List LinEntry → List LinEntry) (report : PageReport) (maxLength : ℤ),
      (totalLength report : ℤ) ≤ maxLength →
      linearizePdfReport shuffle report maxLength =
        headerLine report ++
          strJoin ((mergeImageElements report.image_elements (Rat.divInt 1 2)).map imageLine) ++
          strJoin ((report.text_elements.filter (fun e => isNonBlank e)).map textLine)) ∧
    (∀ shuffle, linearizePdfReport shuffle helloReport 4000 =
      "Page dimensions: 612.0x792.0\n[100x200]Hello\n") := by
  constructor
  · intro shuffle report maxLength hfit
    have htot : ((headerLine report).length + linesLength (allEntries report) : ℤ) ≤ maxLength := by
      unfold totalLength at hfit
      push_cast at hfit ⊢
      omega
    have h25 := headerLine_length_ge report
    have h20 : ¬ maxLength < 20 := by
      have : (25 : ℤ) ≤ (headerLine report).length := by exact_mod_cast h25
      have hL : (0 : ℤ) ≤ linesLength (allEntries report) := by positivity
      omega
    simp only [linearizePdfReport, if_neg h20, if_pos htot]
    rw [appendLines_join, allEntries_lines]
    unfold elemValues
    rw [List.map_append, strJoin_append, List.map_map, List.map_map]
    have h1 : (elemLine ∘ Elem.img) = imageLine := rfl
    have h2 : (elemLine ∘ Elem.txt) = textLine := rfl
    rw [h1, h2, String.append_assoc]
  · intro shuffle
    have h20 : ¬ (4000 : ℤ) < 20 := by decide
    have htot : ((headerLine helloReport).length + linesLength (allEntries helloReport) : ℤ) ≤ 4000 :=
      of_decide_eq_true (by with_unfolding_all rfl)
    simp only [linearizePdfReport, if_neg h20, if_pos htot]
    exact of_decide_eq_true (by with_unfolding_all rfl)

/-- Witness for C3: the Hello page fits the budget and the fits-branch
    equality holds for it. -/
theorem c3_fits_order_witness :
    linearizePdfReport (fun l => l) helloReport 4000 =
      headerLine helloReport ++
        strJoin ((mergeImageElements helloReport.image_elements (Rat.divInt 1 2)).map imageLine) ++
        strJoin ((helloReport.text_elements.filter (fun e => isNonBlank e)).map textLine) :=
  c3_fits_order.1 (fun l => l) helloReport 4000 (of_decide_eq_true (by with_unfolding_all rfl))

end Typhoon

namespace Typhoon

/-! ### C8: the sanitizer on short, escape-free inputs -/

theorem hasEscapable_none (s : String) (h : hasEscapable s = false) :
    ∀ c ∈ s.toList, textReplacement c = none := by
  unfold hasEscapable at h
  rw [List.any_eq_false] at h
  intro c hc
  have hns := h c hc
  cases hrepl : textReplacement c with
  | none => rfl
  | some r => rw [hrepl] at hns; simp at hns

theorem flatMap_escape_id (l : List Char) (h : ∀ c ∈ l, textReplacement c = none) :
    (l.flatMap (fun ch => match textReplacement ch with
      | some r => r
      | none => [ch])) = l := by
  induction l with
  | nil => rfl
  | cons c t ih =>
    rw [List.flatMap_cons, h c (List.mem_cons_self c t),
      ih (fun x hx => h x (List.mem_cons_of_mem c hx))]
    rfl

theorem escapeSpecials_id (s : String) (h : ∀ c ∈ s.toList, textReplacement c = none) :
    escapeSpecials s = s := by
  unfold escapeSpecials
  rw [flatMap_escape_id s.toList h]
  rfl

theorem mem_pyStrip (s : String) : ∀ c ∈ (pyStrip s).toList, c ∈ s.toList := by
  intro c hc
  rw [pyStrip, toList_mkString, List.mem_reverse] at hc
  have h1 := (List.dropWhile_suffix pyIsSpace).sublist.mem hc
  rw [List.mem_reverse] at h1
  exact (List.dropWhile_suffix pyIsSpace).sublist.mem h1

theorem pyStrip_length_le (s : String) : (pyStrip s).length ≤ s.length := by
  rw [pyStrip, length_mkString, List.length_reverse]
  calc ((s.toList.dropWhile pyIsSpace).reverse.dropWhile pyIsSpace).length
      ≤ (s.toList.dropWhile pyIsSpace).reverse.length :=
        (List.dropWhile_suffix pyIsSpace).length_le
    _ = (s.toList.dropWhile pyIsSpace).length := List.length_reverse _
    _ ≤ s.toList.length := (List.dropWhile_suffix pyIsSpace).length_le

theorem capSplitString_id (s : String) (maxLength : ℕ) (h : s.length ≤ maxLength) :
    capSplitString s maxLength = s := by
  unfold capSplitString
  rw [if_pos h]

/-- C8: for every input of length at most 250 containing no escapable
    character, the sanitizer returns exactly the whitespace-trimmed input
    (with the external text-repair pass modelled as the identity on
    well-formed text). -/
theorem c8_sanitizer_trims (s : String) (hlen : s.length ≤ 250)
    (hesc : hasEscapable s = false) : cleanupElementText s = pyStrip s := by
  unfold cleanupElementText ftfyFixText
  rw [escapeSpecials_id _ (fun c hc => hasEscapable_none s hesc c (mem_pyStrip s c hc))]
  exact capSplitString_id _ _ (le_trans (pyStrip_length_le s) hlen)

/-- Witness for C8 at a concrete padded input. -/
theorem c8_sanitizer_trims_witness :
    ("  Hello world  " : String).length ≤ 250 ∧
      hasEscapable "  Hello world  " = false ∧
      cleanupElementText "  Hello world  " = pyStrip "  Hello world  " :=
  ⟨by decide, by decide, c8_sanitizer_trims "  Hello world  " (by decide) (by decide)⟩

end Typhoon

namespace Typhoon

/-! ### C7: idempotence of the sanitizer -/

theorem dropWhile_eq_self_of_head (p : Char → Bool) (l : List Char)
    (h : ∀ c, l.head? = some c → p c = false) : l.dropWhile p = l := by
  cases l with
  | nil => rfl
  | cons a t =>
    have := h a rfl
    simp [List.dropWhile_cons, this]

theorem pyStrip_eq_self (s : String)
    (h1 : ∀ c, s.toList.head? = some c → pyIsSpace c = false)
    (h2 : ∀ c, s.toList.getLast? = some c → pyIsSpace c = false) :
    pyStrip s = s := by
  unfold pyStrip
  rw [dropWhile_eq_self_of_head _ _ h1]
  rw [dropWhile_eq_self_of_head _ _ (fun c hc => h2 c (by rwa [List.head?_reverse] at hc))]
  rw [List.reverse_reverse]
  rfl

theorem head_dropWhile_false (p : Char → Bool) (l : List Char) :
    ∀ c, (l.dropWhile p).head? = some c → p c = false := by
  induction l with
  | nil => intro c hc; simp at hc
  | cons a t ih =>
    intro c hc
    rw [List.dropWhile_cons] at hc
    by_cases hp : p a = true
    · rw [if_pos hp] at hc
      exact ih c hc
    · rw [if_neg hp] at hc
      simp only [List.head?_cons, Option.some.injEq] at hc
      rw [← hc]
      exact Bool.eq_false_iff.mpr hp

theorem getLast?_of_suffix {l₁ l₂ : List Char} (h : l₁ <:+ l₂) (c : Char)
    (hc : l₁.getLast? = some c) : l₂.getLast? = some c := by
  obtain ⟨u, rfl⟩ := h
  rw [List.getLast?_append, hc]
  rfl

theorem head?_of_pre {l₁ l₂ : List Char} (h : l₁ <+: l₂) (c : Char)
    (hc : l₁.head? = some c) : l₂.head? = some c := by
  obtain ⟨u, rfl⟩ := h
  cases l₁ with
  | nil => simp at hc
  | cons a t => simpa using hc

/-- The head of a stripped string is not whitespace. -/
theorem pyStrip_headOk (s : String) :
    ∀ c, (pyStrip s).toList.head? = some c → pyIsSpace c = false := by
  intro c hc
  rw [pyStrip, toList_mkString, List.head?_reverse] at hc
  have hY := getLast?_of_suffix (List.dropWhile_suffix pyIsSpace) c hc
  rw [List.getLast?_reverse] at hY
  exact head_dropWhile_false pyIsSpace _ c hY

/-- The last character of a stripped string is not whitespace. -/
theorem pyStrip_lastOk (s : String) :
    ∀ c, (pyStrip s).toList.getLast? = some c → pyIsSpace c = false := by
  intro c hc
  rw [pyStrip, toList_mkString, List.getLast?_reverse] at hc
  exact head_dropWhile_false pyIsSpace _ c hc

/-- The per-character escape output is never empty. -/
theorem escapeOne_ne_nil (a : Char) :
    (match textReplacement a with
      | some r => r
      | none => [a]) ≠ [] := by
  unfold textReplacement
  split_ifs <;> simp

/-- The escape image of a non-space character starts with a non-space
    character (a backslash, or the character itself). -/
theorem escapeOne_headOk (a : Char) (ha : pyIsSpace a = false) :
    ∀ c, (match textReplacement a with
      | some r => r
      | none => [a]).head? = some c → pyIsSpace c = false := by
  intro c hc
  revert hc
  unfold textReplacement
  split_ifs <;> intro hc <;>
    simp only [List.head?_cons, Option.some.injEq] at hc <;>
    rw [← hc] <;> first | exact ha | decide

/-- The escape image of a non-space character ends with a non-space
    character. -/
theorem escapeOne_lastOk (a : Char) (ha : pyIsSpace a = false) :
    ∀ c, (match textReplacement a with
      | some r => r
      | none => [a]).getLast? = some c → pyIsSpace c = false := by
  intro c hc
  revert hc
  unfold textReplacement
  split_ifs <;> intro hc <;>
    simp only [List.getLast?_cons_cons, List.getLast?_singleton, Option.some.injEq] at hc <;>
    rw [← hc] <;> first | exact ha | decide

theorem escapeSpecials_headOk (v : String)
    (h : ∀ c, v.toList.head? = some c → pyIsSpace c = false) :
    ∀ c, (escapeSpecials v).toList.head? = some c → pyIsSpace c = false := by
  intro c hc
  rw [escapeSpecials, toList_mkString] at hc
  cases hv : v.toList with
  | nil => rw [hv] at hc; simp at hc
  | cons a t =>
    rw [hv, List.flatMap_cons] at hc
    have ha : pyIsSpace a = false := h a (by rw [hv]; rfl)
    refine escapeOne_headOk a ha c ?_
    have hne := escapeOne_ne_nil a
    revert hne hc
    generalize (match textReplacement a with
      | some r => r
      | none => [a]) = fa
    intro hc hne
    cases fa with
    | nil => exact absurd rfl hne
    | cons b bs => simpa using hc

theorem escapeSpecials_lastOk (v : String)
    (h : ∀ c, v.toList.getLast? = some c → pyIsSpace c = false) :
    ∀ c, (escapeSpecials v).toList.getLast? = some c → pyIsSpace c = false := by
  intro c hc
  rw [escapeSpecials, toList_mkString] at hc
  rcases List.eq_nil_or_concat v.toList with hv | ⟨ys, a, hv⟩
  · rw [hv] at hc; simp at hc
  · rw [List.concat_eq_append] at hv
    rw [hv, List.flatMap_append, List.flatMap_cons] at hc
    have ha : pyIsSpace a = false := h a (by rw [hv, List.getLast?_concat])
    refine escapeOne_lastOk a ha c ?_
    have hne := escapeOne_ne_nil a
    simp only [List.flatMap_nil, List.append_nil] at hc
    revert hne hc
    generalize (match textReplacement a with
      | some r => r
      | none => [a]) = fa
    intro hne hc
    rcases List.eq_nil_or_concat fa with rfl | ⟨us, u, rfl⟩
    · exact absurd rfl hne
    · rw [List.concat_eq_append, ← List.append_assoc, List.getLast?_concat] at hc
      rw [List.concat_eq_append, List.getLast?_concat]
      exact hc

end Typhoon

namespace Typhoon

theorem beforeLastSpace_pre (l : List Char) : beforeLastSpace l <+: l := by
  unfold beforeLastSpace
  split
  · have hsuf : ((l.reverse.dropWhile (fun c => c ≠ ' ')).drop 1) <:+ l.reverse :=
      (List.drop_suffix _ _).trans (List.dropWhile_suffix _)
    have := List.reverse_prefix.mpr hsuf
    rwa [List.reverse_reverse] at this
  · exact List.prefix_refl l

theorem afterFirstSpace_suffix (l : List Char) : afterFirstSpace l <:+ l := by
  unfold afterFirstSpace
  split
  · exact (List.drop_suffix _ _).trans (List.dropWhile_suffix _)
  · exact List.suffix_refl l

theorem capSplitString_length_le (s : String) : (capSplitString s 250).length ≤ 250 := by
  unfold capSplitString
  split
  · assumption
  · simp only [String.length_append, length_mkString]
    have h5 : (" ... " : String).length = 5 := by decide
    have hhs : (s.toList.take (250 / 2 - 3)).length ≤ 250 / 2 - 3 := by
      rw [List.length_take]; omega
    have hhp := (beforeLastSpace_pre (s.toList.take (250 / 2 - 3))).length_le
    have hts : (s.toList.drop (s.toList.length - (250 / 2 - 3))).length ≤ 250 / 2 - 3 := by
      rw [List.length_drop]; omega
    have htp := (afterFirstSpace_suffix (s.toList.drop (s.toList.length - (250 / 2 - 3)))).length_le
    split <;> split <;> omega

theorem head?_append_left (A B : List Char) (hA : A ≠ []) : (A ++ B).head? = A.head? := by
  cases A with
  | nil => exact absurd rfl hA
  | cons a t => rfl

theorem getLast?_append_right (A B : List Char) (hB : B ≠ []) :
    (A ++ B).getLast? = B.getLast? := by
  rw [List.getLast?_append]
  cases hL : B.getLast? with
  | none => exact absurd (List.getLast?_eq_none_iff.mp hL) hB
  | some d => rfl

theorem toList_length (s : String) : s.toList.length = s.length := rfl

theorem head?_three (A B : List Char) (hA : A ≠ []) (c : Char)
    (hc : ((⟨A⟩ : String) ++ " ... " ++ (⟨B⟩ : String)).toList.head? = some c) :
    A.head? = some c := by
  rw [toList_append, toList_append, toList_mkString A, toList_mkString B, List.append_assoc,
    head?_append_left _ _ hA] at hc
  exact hc

theorem getLast?_three (A B : List Char) (hB : B ≠ []) (c : Char)
    (hc : ((⟨A⟩ : String) ++ " ... " ++ (⟨B⟩ : String)).toList.getLast? = some c) :
    B.getLast? = some c := by
  rw [toList_append, toList_append, toList_mkString A, toList_mkString B,
    getLast?_append_right _ _ hB] at hc
  exact hc

theorem capSplitString_headOk (s : String)
    (h : ∀ c, s.toList.head? = some c → pyIsSpace c = false) :
    ∀ c, (capSplitString s 250).toList.head? = some c → pyIsSpace c = false := by
  intro c
  unfold capSplitString
  split
  · exact h c
  · rename_i hlong
    intro hc
    have hsne : s.toList ≠ [] := by
      intro hnil
      rw [← toList_length, hnil] at hlong
      exact hlong (by decide)
    have hslice : s.toList.take (250 / 2 - 3) ≠ [] := by
      rw [Ne, List.take_eq_nil_iff]
      push_neg
      exact ⟨by decide, hsne⟩
    have hA : (if beforeLastSpace (s.toList.take (250 / 2 - 3)) = []
        then s.toList.take (250 / 2 - 3)
        else beforeLastSpace (s.toList.take (250 / 2 - 3))) ≠ [] := by
      split
      · exact hslice
      · assumption
    have hc2 := head?_three _ _ hA c hc
    split at hc2
    · exact h c (head?_of_pre (List.take_prefix _ _) c hc2)
    · exact h c (head?_of_pre ((beforeLastSpace_pre _).trans (List.take_prefix _ _)) c hc2)

theorem capSplitString_lastOk (s : String)
    (h : ∀ c, s.toList.getLast? = some c → pyIsSpace c = false) :
    ∀ c, (capSplitString s 250).toList.getLast? = some c → pyIsSpace c = false := by
  intro c
  unfold capSplitString
  split
  · exact h c
  · rename_i hlong
    intro hc
    have hlen : 250 < s.toList.length := by
      rw [toList_length]; omega
    have hslice : s.toList.drop (s.toList.length - (250 / 2 - 3)) ≠ [] := by
      apply List.ne_nil_of_length_pos
      rw [List.length_drop]
      omega
    have hB : (if afterFirstSpace (s.toList.drop (s.toList.length - (250 / 2 - 3))) = []
        then s.toList.drop (s.toList.length - (250 / 2 - 3))
        else afterFirstSpace (s.toList.drop (s.toList.length - (250 / 2 - 3)))) ≠ [] := by
      split
      · exact hslice
      · assumption
    have hc2 := getLast?_three _ _ hB c hc
    split at hc2
    · exact h c (getLast?_of_suffix (List.drop_suffix _ _) c hc2)
    · exact h c (getLast?_of_suffix ((afterFirstSpace_suffix _).trans (List.drop_suffix _ _)) c hc2)

theorem cleanup_headOk (t : String) :
    ∀ c, (cleanupElementText t).toList.head? = some c → pyIsSpace c = false := by
  unfold cleanupElementText ftfyFixText
  exact capSplitString_headOk _ (escapeSpecials_headOk _ (pyStrip_headOk t))

theorem cleanup_lastOk (t : String) :
    ∀ c, (cleanupElementText t).toList.getLast? = some c → pyIsSpace c = false := by
  unfold cleanupElementText ftfyFixText
  exact capSplitString_lastOk _ (escapeSpecials_lastOk _ (pyStrip_lastOk t))

/-- Sanitizer outputs carry no leading or trailing whitespace, so stripping
    them again is the identity. -/
theorem pyStrip_cleanup (t : String) :
    pyStrip (cleanupElementText t) = cleanupElementText t :=
  pyStrip_eq_self _ (cleanup_headOk t) (cleanup_lastOk t)

theorem cleanup_length_le (t : String) : (cleanupElementText t).length ≤ 250 := by
  unfold cleanupElementText
  exact capSplitString_length_le _

/-- C7 counterexample: the sanitizer is not idempotent on every input — a
    bracket is escaped to `\[`, and sanitizing again escapes the bracket
    once more, yielding `\\[`. -/
theorem c7_counterexample :
    cleanupElementText (cleanupElementText "[") ≠ cleanupElementText "[" := by
  decide

/-- C7 (amended): the sanitizer is idempotent on every input whose
    sanitized form contains no further escapable characters (the spec's
    round-trip property with its "no further special characters" proviso);
    inputs with escapable characters are re-escaped on the second pass. -/
theorem c7_amended_idempotent (t : String)
    (h : hasEscapable (cleanupElementText t) = false) :
    cleanupElementText (cleanupElementText t) = cleanupElementText t := by
  show capSplitString (escapeSpecials (pyStrip (ftfyFixText (cleanupElementText t)))) 250 =
    cleanupElementText t
  have hfix : ftfyFixText (cleanupElementText t) = cleanupElementText t := rfl
  rw [hfix, pyStrip_cleanup, escapeSpecials_id _ (hasEscapable_none _ h),
    capSplitString_id _ _ (cleanup_length_le t)]

/-- Witness for the amended C7 theorem on a sanitized-stable input. -/
theorem c7_amended_idempotent_witness :
    hasEscapable (cleanupElementText "Hello world") = false ∧
      cleanupElementText (cleanupElementText "Hello world") = cleanupElementText "Hello world" :=
  ⟨by decide, c7_amended_idempotent "Hello world" (by decide)⟩

end Typhoon

namespace Typhoon

/-! ### C4: union-find walk lemmas -/

theorem ufPath_det (p : List ℕ) {i : ℕ} {l : List ℕ} {r : ℕ}
    (h1 : UFPath p i l r) : ∀ {l2 r2}, UFPath p i l2 r2 → l = l2 ∧ r = r2 := by
  induction h1 with
  | root r0 hr0 =>
    intro l2 r2 h2
    cases h2 with
    | root _ => exact ⟨rfl, rfl⟩
    | step _ _ _ hn _ => exact absurd hr0 hn
  | step i0 l0 r0 hn0 hsub ih =>
    intro l2 r2 h2
    cases h2 with
    | root _ hr => exact absurd hr hn0
    | step _ _ _ _ hsub2 =>
      obtain ⟨hl, hr⟩ := ih hsub2
      exact ⟨by rw [hl], hr⟩

theorem ufPath_root_isRoot {p : List ℕ} {i : ℕ} {l : List ℕ} {r : ℕ}
    (h : UFPath p i l r) : p.getD r r = r := by
  induction h with
  | root r0 hr0 => exact hr0
  | step _ _ _ _ _ ih => exact ih

theorem ufPath_mem {p : List ℕ} {i : ℕ} {l : List ℕ} {r : ℕ} (h : UFPath p i l r) :
    ∀ j ∈ l, ∃ l2, UFPath p j l2 r ∧ l2.length ≤ l.length := by
  induction h with
  | root r0 hr0 =>
    intro j hj
    rw [List.mem_singleton] at hj
    subst hj
    exact ⟨[j], UFPath.root j hr0, le_refl _⟩
  | step i0 l0 r0 hn0 hsub ih =>
    intro j hj
    rcases List.mem_cons.mp hj with rfl | hj2
    · exact ⟨j :: l0, UFPath.step j l0 r0 hn0 hsub, le_refl _⟩
    · obtain ⟨l2, hp2, hlen⟩ := ih j hj2
      exact ⟨l2, hp2, le_trans hlen (Nat.le_succ _)⟩

theorem ufPath_nodup {p : List ℕ} {i : ℕ} {l : List ℕ} {r : ℕ}
    (h : UFPath p i l r) : l.Nodup := by
  induction h with
  | root r0 hr0 => exact List.nodup_singleton r0
  | step i0 l0 r0 hn0 hsub ih =>
    rw [List.nodup_cons]
    refine ⟨?_, ih⟩
    intro hmem
    obtain ⟨l2, hp2, hlen⟩ := ufPath_mem hsub i0 hmem
    obtain ⟨hl, _⟩ := ufPath_det p (UFPath.step i0 l0 r0 hn0 hsub) hp2
    rw [← hl] at hlen
    simp at hlen

theorem ufPath_mem_lt {n : ℕ} {p : List ℕ} (_hlen : p.length = n)
    (hent : ∀ i, i < n → p.getD i i < n) {i : ℕ} {l : List ℕ} {r : ℕ}
    (h : UFPath p i l r) (hi : i < n) : ∀ j ∈ l, j < n := by
  induction h with
  | root r0 hr0 =>
    intro j hj
    rw [List.mem_singleton] at hj
    subst hj
    exact hi
  | step i0 l0 r0 hn0 hsub ih =>
    intro j hj
    rcases List.mem_cons.mp hj with rfl | hj2
    · exact hi
    · exact ih (hent i0 hi) j hj2

theorem ufPath_length_le {n : ℕ} {p : List ℕ} (hlen : p.length = n)
    (hent : ∀ i, i < n → p.getD i i < n) {i : ℕ} {l : List ℕ} {r : ℕ}
    (h : UFPath p i l r) (hi : i < n) : l.length ≤ n := by
  have hnd := ufPath_nodup h
  have hlt := ufPath_mem_lt hlen hent h hi
  have hsub : l.toFinset ⊆ Finset.range n := by
    intro x hx
    rw [List.mem_toFinset] at hx
    rw [Finset.mem_range]
    exact hlt x hx
  have hcard := Finset.card_le_card hsub
  rw [List.toFinset_card_of_nodup hnd, Finset.card_range] at hcard
  exact hcard

theorem walkRoot_eq {p : List ℕ} {i : ℕ} {l : List ℕ} {r : ℕ} (h : UFPath p i l r) :
    ∀ fuel, l.length ≤ fuel → walkRoot p fuel i = r := by
  induction h with
  | root r0 hr0 =>
    intro fuel hf
    cases fuel with
    | zero => simp at hf
    | succ f =>
      simp only [walkRoot]
      rw [if_pos hr0]
  | step i0 l0 r0 hn0 hsub ih =>
    intro fuel hf
    cases fuel with
    | zero => simp at hf
    | succ f =>
      have hlf : l0.length ≤ f := by
        simp only [List.length_cons] at hf
        omega
      simp only [walkRoot]
      rw [if_neg hn0]
      exact ih f hlf

theorem isRoot_of_ge {p : List ℕ} {i : ℕ} (h : p.length ≤ i) : p.getD i i = i :=
  List.getD_eq_default _ _ h

theorem ufPath_exists {n : ℕ} {p : List ℕ} (hwf : UFWF n p) (i : ℕ) :
    ∃ l r, UFPath p i l r := by
  rcases lt_or_ge i n with hi | hi
  · exact hwf.2.2 i hi
  · exact ⟨[i], i, UFPath.root i (isRoot_of_ge (by rw [hwf.1]; exact hi))⟩

theorem ufPath_length_le_fuel {n : ℕ} {p : List ℕ} (hwf : UFWF n p)
    {i : ℕ} {l : List ℕ} {r : ℕ} (h : UFPath p i l r) : l.length ≤ p.length + 1 := by
  rcases lt_or_ge i n with hi | hi
  · have h1 := ufPath_length_le hwf.1 hwf.2.1 h hi
    have h2 := hwf.1
    omega
  · obtain ⟨hl, _⟩ := ufPath_det p
      (UFPath.root i (isRoot_of_ge (by rw [hwf.1]; exact hi))) h
    rw [← hl]
    simp

theorem rootOf_eq {n : ℕ} {p : List ℕ} (hwf : UFWF n p)
    {i : ℕ} {l : List ℕ} {r : ℕ} (h : UFPath p i l r) : rootOf p i = r :=
  walkRoot_eq h _ (ufPath_length_le_fuel hwf h)

theorem rootOf_path {n : ℕ} {p : List ℕ} (hwf : UFWF n p) (i : ℕ) :
    ∃ l, UFPath p i l (rootOf p i) := by
  obtain ⟨l, r, h⟩ := ufPath_exists hwf i
  rw [rootOf_eq hwf h]
  exact ⟨l, h⟩

theorem rootOf_ge {n : ℕ} {p : List ℕ} (hwf : UFWF n p) {i : ℕ} (hi : n ≤ i) :
    rootOf p i = i :=
  rootOf_eq hwf (UFPath.root i (isRoot_of_ge (by rw [hwf.1]; exact hi)))

theorem ufPath_root_mem {p : List ℕ} {i : ℕ} {l : List ℕ} {r : ℕ}
    (h : UFPath p i l r) : r ∈ l := by
  induction h with
  | root r0 hr0 => exact List.mem_singleton.mpr rfl
  | step i0 l0 r0 hn0 hsub ih => exact List.mem_cons_of_mem _ ih

theorem rootOf_lt {n : ℕ} {p : List ℕ} (hwf : UFWF n p) {i : ℕ} (hi : i < n) :
    rootOf p i < n := by
  obtain ⟨l, h⟩ := rootOf_path hwf i
  exact ufPath_mem_lt hwf.1 hwf.2.1 h hi _ (ufPath_root_mem h)

end Typhoon

namespace Typhoon

theorem getD_set_ne (p : List ℕ) (x v i : ℕ) (h : i ≠ x) :
    (p.set x v).getD i i = p.getD i i := by
  simp [List.getD, List.getElem?_set_ne (Ne.symm h)]

theorem getD_set_self (p : List ℕ) (x v : ℕ) (h : x < p.length) :
    (p.set x v).getD x x = v := by
  simp [List.getD, List.getElem?_set_self, h]

theorem inRange_of_not_root {p : List ℕ} {x : ℕ} (h : p.getD x x ≠ x) : x < p.length := by
  by_contra hge
  push_neg at hge
  exact h (isRoot_of_ge hge)

theorem ufPath_set_not_mem {p : List ℕ} (x v : ℕ) {i : ℕ} {l : List ℕ} {r : ℕ}
    (h : UFPath p i l r) (hx : x ∉ l) : UFPath (p.set x v) i l r := by
  induction h with
  | root r0 hr0 =>
    refine UFPath.root r0 ?_
    rw [getD_set_ne p x v r0 (fun he => hx (he ▸ List.mem_singleton.mpr rfl))]
    exact hr0
  | step i0 l0 r0 hn0 hsub ih =>
    have hne : i0 ≠ x := fun he => hx (he ▸ List.mem_cons_self i0 l0)
    have hxl : x ∉ l0 := fun hm => hx (List.mem_cons_of_mem _ hm)
    refine UFPath.step i0 l0 r0 ?_ ?_
    · rw [getD_set_ne p x v i0 hne]
      exact hn0
    · rw [getD_set_ne p x v i0 hne]
      exact ih hxl

/-- Redirecting a non-root node `x` straight to its own root preserves every
    walk's destination. -/
theorem ufPath_set_to_root {p : List ℕ} {x : ℕ} {lx : List ℕ} {rx : ℕ}
    (hx : UFPath p x lx rx) (hnr : p.getD x x ≠ x) :
    ∀ {i l r}, UFPath p i l r → ∃ l2, UFPath (p.set x rx) i l2 r := by
  have hrx : p.getD rx rx = rx := ufPath_root_isRoot hx
  have hxr : x ≠ rx := fun he => hnr (by rw [he]; exact hrx)
  have hxlen : x < p.length := inRange_of_not_root hnr
  intro i l r h
  induction h with
  | root r0 hr0 =>
    have hne : r0 ≠ x := fun he => hnr (he ▸ hr0)
    exact ⟨[r0], UFPath.root r0 (by rw [getD_set_ne p x rx r0 hne]; exact hr0)⟩
  | step i0 l0 r0 hn0 hsub ih =>
    by_cases hix : i0 = x
    · subst hix
      obtain ⟨_, hreq⟩ := ufPath_det p (UFPath.step i0 l0 r0 hn0 hsub) hx
      subst hreq
      refine ⟨[i0, r0], UFPath.step i0 [r0] r0 ?_ ?_⟩
      · rw [getD_set_self p i0 r0 hxlen]
        exact Ne.symm hxr
      · rw [getD_set_self p i0 r0 hxlen]
        exact UFPath.root r0 (by rw [getD_set_ne p i0 r0 r0 (Ne.symm hxr)]; exact hrx)
    · obtain ⟨l2, hp2⟩ := ih
      refine ⟨i0 :: l2, UFPath.step i0 l2 r0 ?_ ?_⟩
      · rw [getD_set_ne p x rx i0 hix]
        exact hn0
      · rw [getD_set_ne p x rx i0 hix]
        exact hp2

/-- Redirecting a non-root node to its root preserves well-formedness and
    the root function. -/
theorem rootOf_set_to_root {n : ℕ} {p : List ℕ} (hwf : UFWF n p)
    {x : ℕ} {lx : List ℕ} {rx : ℕ} (hx : UFPath p x lx rx) (hnr : p.getD x x ≠ x) :
    UFWF n (p.set x rx) ∧ ∀ j, rootOf (p.set x rx) j = rootOf p j := by
  have hxlen : x < p.length := inRange_of_not_root hnr
  have hxn : x < n := by rw [← hwf.1]; exact hxlen
  have hrxn : rx < n := by
    rw [show rx = rootOf p x from (rootOf_eq hwf hx).symm]
    exact rootOf_lt hwf hxn
  have hwf2 : UFWF n (p.set x rx) := by
    refine ⟨by rw [List.length_set]; exact hwf.1, ?_, ?_⟩
    · intro i hi
      by_cases hix : i = x
      · subst hix
        rw [getD_set_self p i rx hxlen]
        exact hrxn
      · rw [getD_set_ne p x rx i hix]
        exact hwf.2.1 i hi
    · intro i hi
      obtain ⟨l, r, h⟩ := hwf.2.2 i hi
      obtain ⟨l2, h2⟩ := ufPath_set_to_root hx hnr h
      exact ⟨l2, r, h2⟩
  refine ⟨hwf2, ?_⟩
  intro j
  obtain ⟨l, r, h⟩ := ufPath_exists hwf j
  obtain ⟨l2, h2⟩ := ufPath_set_to_root hx hnr h
  rw [rootOf_eq hwf2 h2, rootOf_eq hwf h]

/-- Path compression preserves well-formedness and the root function. -/
theorem compress_spec {n : ℕ} : ∀ (fuel : ℕ) (p : List ℕ) (i : ℕ) (l : List ℕ) (r : ℕ),
    UFWF n p → UFPath p i l r →
    UFWF n (compressPath p r fuel i) ∧
      ∀ j, rootOf (compressPath p r fuel i) j = rootOf p j := by
  intro fuel
  induction fuel with
  | zero =>
    intro p i l r hwf _
    exact ⟨hwf, fun _ => rfl⟩
  | succ f ih =>
    intro p i l r hwf h
    cases h with
    | root r0 hr0 =>
      simp only [compressPath]
      rw [if_pos hr0]
      exact ⟨hwf, fun _ => rfl⟩
    | step i0 l0 r0 hn0 hsub =>
      simp only [compressPath]
      rw [if_neg hn0]
      have hfull : UFPath p i (i :: l0) r := UFPath.step i l0 r hn0 hsub
      obtain ⟨hwf2, hroots⟩ := rootOf_set_to_root hwf hfull hn0
      have hnotmem : i ∉ l0 := by
        have hnd := ufPath_nodup hfull
        rw [List.nodup_cons] at hnd
        exact hnd.1
      have hsub2 : UFPath (p.set i r) (p.getD i i) l0 r :=
        ufPath_set_not_mem i r hsub hnotmem
      obtain ⟨hwf3, hroots3⟩ := ih (p.set i r) (p.getD i i) l0 r hwf2 hsub2
      exact ⟨hwf3, fun j => (hroots3 j).trans (hroots j)⟩

/-- `find` returns the root and preserves both well-formedness and the root
    function. -/
theorem ufFind_spec {n : ℕ} {p : List ℕ} (hwf : UFWF n p) (i : ℕ) :
    (ufFind p i).1 = rootOf p i ∧ UFWF n (ufFind p i).2 ∧
      ∀ j, rootOf (ufFind p i).2 j = rootOf p j := by
  obtain ⟨l, h⟩ := rootOf_path hwf i
  exact ⟨rfl, (compress_spec (p.length + 1) p i l (rootOf p i) hwf h).1,
    (compress_spec (p.length + 1) p i l (rootOf p i) hwf h).2⟩

end Typhoon

namespace Typhoon

theorem rootOf_isRoot {n : ℕ} {p : List ℕ} (hwf : UFWF n p) (i : ℕ) :
    p.getD (rootOf p i) (rootOf p i) = rootOf p i := by
  obtain ⟨l, h⟩ := rootOf_path hwf i
  exact ufPath_root_isRoot h

theorem rootOf_idem {n : ℕ} {p : List ℕ} (hwf : UFWF n p) (i : ℕ) :
    rootOf p (rootOf p i) = rootOf p i :=
  rootOf_eq hwf (UFPath.root _ (rootOf_isRoot hwf i))

theorem isRoot_of_rootOf_eq {n : ℕ} {p : List ℕ} (hwf : UFWF n p) {x : ℕ}
    (h : rootOf p x = x) : p.getD x x = x := by
  have := rootOf_isRoot hwf x
  rwa [h] at this

/-- Attaching the root `ri` to the distinct root `rj` redirects exactly the
    walks that ended at `ri`. -/
theorem ufPath_link {p : List ℕ} {ri rj : ℕ} (hri : p.getD ri ri = ri)
    (hrj : p.getD rj rj = rj) (hne : ri ≠ rj) (hlen : ri < p.length) :
    ∀ {a l ra}, UFPath p a l ra →
      (ra ≠ ri → UFPath (p.set ri rj) a l ra) ∧
      (ra = ri → UFPath (p.set ri rj) a (l ++ [rj]) rj) := by
  intro a l ra h
  induction h with
  | root r0 hr0 =>
    constructor
    · intro hner
      exact UFPath.root r0 (by rw [getD_set_ne p ri rj r0 hner]; exact hr0)
    · intro he
      refine UFPath.step r0 [rj] rj ?_ ?_
      · rw [he, getD_set_self p ri rj hlen]
        exact Ne.symm hne
      · rw [he, getD_set_self p ri rj hlen]
        exact UFPath.root rj (by rw [getD_set_ne p ri rj rj (Ne.symm hne)]; exact hrj)
  | step i0 l0 r0 hn0 hsub ih =>
    have hia : i0 ≠ ri := fun he => hn0 (he ▸ hri)
    constructor
    · intro hner
      exact UFPath.step i0 l0 r0 (by rw [getD_set_ne p ri rj i0 hia]; exact hn0)
        (by rw [getD_set_ne p ri rj i0 hia]; exact ih.1 hner)
    · intro he
      exact UFPath.step i0 (l0 ++ [rj]) rj (by rw [getD_set_ne p ri rj i0 hia]; exact hn0)
        (by rw [getD_set_ne p ri rj i0 hia]; exact ih.2 he)

/-- Linking two distinct roots: well-formedness is preserved and the root
    function changes exactly on the class of `ri`. -/
theorem rootOf_link {n : ℕ} {p : List ℕ} (hwf : UFWF n p) {ri rj : ℕ}
    (hri : p.getD ri ri = ri) (hrj : p.getD rj rj = rj) (hne : ri ≠ rj)
    (hrin : ri < n) (hrjn : rj < n) :
    UFWF n (p.set ri rj) ∧
      ∀ a, rootOf (p.set ri rj) a = if rootOf p a = ri then rj else rootOf p a := by
  have hlenp : ri < p.length := by rw [hwf.1]; exact hrin
  have hwf2 : UFWF n (p.set ri rj) := by
    refine ⟨by rw [List.length_set]; exact hwf.1, ?_, ?_⟩
    · intro i hi
      by_cases hix : i = ri
      · subst hix
        rw [getD_set_self p i rj hlenp]
        exact hrjn
      · rw [getD_set_ne p ri rj i hix]
        exact hwf.2.1 i hi
    · intro i hi
      obtain ⟨l, r, h⟩ := hwf.2.2 i hi
      by_cases hr : r = ri
      · exact ⟨l ++ [rj], rj, (ufPath_link hri hrj hne hlenp h).2 hr⟩
      · exact ⟨l, r, (ufPath_link hri hrj hne hlenp h).1 hr⟩
  refine ⟨hwf2, ?_⟩
  intro a
  obtain ⟨l, h⟩ := rootOf_path hwf a
  by_cases hr : rootOf p a = ri
  · rw [if_pos hr]
    exact rootOf_eq hwf2 ((ufPath_link hri hrj hne hlenp h).2 hr)
  · rw [if_neg hr]
    exact rootOf_eq hwf2 ((ufPath_link hri hrj hne hlenp h).1 hr)

/-- `union` preserves well-formedness; the root function maps the class of
    `i` onto the class of `j` and is unchanged elsewhere. -/
theorem ufUnion_spec {n : ℕ} {p : List ℕ} (hwf : UFWF n p) {i j : ℕ}
    (hi : i < n) (hj : j < n) :
    UFWF n (ufUnion p i j) ∧
      ∀ a, rootOf (ufUnion p i j) a =
        if rootOf p a = rootOf p i then rootOf p j else rootOf p a := by
  obtain ⟨hf1, hwf1, hr1⟩ := ufFind_spec hwf i
  obtain ⟨hf2, hwf2, hr2⟩ := ufFind_spec hwf1 j
  have hps : ∀ a, rootOf (ufFind (ufFind p i).2 j).2 a = rootOf p a :=
    fun a => (hr2 a).trans (hr1 a)
  have hfj1 : (ufFind (ufFind p i).2 j).1 = rootOf p j := by
    rw [hf2, hr1]
  simp only [ufUnion]
  by_cases heq : (ufFind p i).1 = (ufFind (ufFind p i).2 j).1
  · rw [if_pos heq]
    have hij : rootOf p i = rootOf p j := by
      rw [← hf1, ← hfj1]
      exact heq
    refine ⟨hwf2, ?_⟩
    intro a
    rw [hps a]
    by_cases hc : rootOf p a = rootOf p i
    · rw [if_pos hc, ← hij]
      exact hc
    · rw [if_neg hc]
  · rw [if_neg heq]
    have hij : rootOf p i ≠ rootOf p j := by
      rw [← hf1, ← hfj1]
      exact heq
    have hri2 : rootOf (ufFind (ufFind p i).2 j).2 (rootOf p i) = rootOf p i := by
      rw [hps]
      exact rootOf_idem hwf i
    have hrj2 : rootOf (ufFind (ufFind p i).2 j).2 (rootOf p j) = rootOf p j := by
      rw [hps]
      exact rootOf_idem hwf j
    have hriroot := isRoot_of_rootOf_eq hwf2 hri2
    have hrjroot := isRoot_of_rootOf_eq hwf2 hrj2
    have hrin : rootOf p i < n := rootOf_lt hwf hi
    have hrjn : rootOf p j < n := rootOf_lt hwf hj
    obtain ⟨hwfU, hrootsU⟩ := rootOf_link hwf2 hriroot hrjroot hij hrin hrjn
    constructor
    · rw [hf1, hfj1]
      exact hwfU
    · intro a
      have := hrootsU a
      rw [hps a] at this
      rw [hf1, hfj1]
      exact this

end Typhoon

namespace Typhoon

/-- One iteration of the union loop: the root function changes exactly on
    the class of the first index, and only when the boxes overlap. -/
theorem unionStep_cases {n : ℕ} {images : List ImageElement} {tol : ℚ} {p : List ℕ}
    {ij : ℕ × ℕ} (hwf : UFWF n p) (h1 : ij.1 < n) (h2 : ij.2 < n) :
    UFWF n (unionStep images tol p ij) ∧
      ∀ a, rootOf (unionStep images tol p ij) a =
        if bboxesOverlap (images.getD ij.1 default).bbox (images.getD ij.2 default).bbox tol
            = true ∧ rootOf p a = rootOf p ij.1
        then rootOf p ij.2 else rootOf p a := by
  unfold unionStep
  by_cases hov : bboxesOverlap (images.getD ij.1 default).bbox
      (images.getD ij.2 default).bbox tol = true
  · rw [if_pos hov]
    obtain ⟨hwfU, hroots⟩ := ufUnion_spec hwf h1 h2
    refine ⟨hwfU, ?_⟩
    intro a
    rw [hroots a]
    simp only [hov, true_and]
  · rw [if_neg hov]
    refine ⟨hwf, ?_⟩
    intro a
    rw [if_neg (fun hcontra => hov hcontra.1)]

theorem foldUnion_wf {n : ℕ} {images : List ImageElement} {tol : ℚ} :
    ∀ (L : List (ℕ × ℕ)) (p : List ℕ), UFWF n p →
      (∀ ab ∈ L, ab.1 < n ∧ ab.2 < n) →
      UFWF n (L.foldl (unionStep images tol) p) := by
  intro L
  induction L with
  | nil => intro p hwf _; exact hwf
  | cons hd t ih =>
    intro p hwf hb
    have hh := hb hd (List.mem_cons_self hd t)
    exact ih _ (unionStep_cases hwf hh.1 hh.2).1
      (fun ab hab => hb ab (List.mem_cons_of_mem hd hab))

theorem foldUnion_preserves_eq {n : ℕ} {images : List ImageElement} {tol : ℚ} :
    ∀ (L : List (ℕ × ℕ)) (p : List ℕ), UFWF n p →
      (∀ ab ∈ L, ab.1 < n ∧ ab.2 < n) →
      ∀ a b, rootOf p a = rootOf p b →
        rootOf (L.foldl (unionStep images tol) p) a =
          rootOf (L.foldl (unionStep images tol) p) b := by
  intro L
  induction L with
  | nil => intro p _ _ a b hab; exact hab
  | cons hd t ih =>
    intro p hwf hb a b hab
    have hh := hb hd (List.mem_cons_self hd t)
    obtain ⟨hwf2, hroots⟩ := @unionStep_cases _ images tol _ _ hwf hh.1 hh.2
    refine ih _ hwf2 (fun ab hab2 => hb ab (List.mem_cons_of_mem hd hab2)) a b ?_
    rw [hroots a, hroots b, hab]

theorem foldUnion_edge {n : ℕ} {images : List ImageElement} {tol : ℚ} :
    ∀ (L : List (ℕ × ℕ)) (p : List ℕ), UFWF n p →
      (∀ ab ∈ L, ab.1 < n ∧ ab.2 < n) →
      ∀ ij ∈ L,
        bboxesOverlap (images.getD ij.1 default).bbox (images.getD ij.2 default).bbox tol
          = true →
        rootOf (L.foldl (unionStep images tol) p) ij.1 =
          rootOf (L.foldl (unionStep images tol) p) ij.2 := by
  intro L
  induction L with
  | nil => intro p _ _ ij hij; cases hij
  | cons hd t ih =>
    intro p hwf hb ij hij hov
    have hh := hb hd (List.mem_cons_self hd t)
    obtain ⟨hwf2, hroots⟩ := @unionStep_cases _ images tol _ _ hwf hh.1 hh.2
    have hbt : ∀ ab ∈ t, ab.1 < n ∧ ab.2 < n :=
      fun ab hab2 => hb ab (List.mem_cons_of_mem hd hab2)
    rcases List.mem_cons.mp hij with rfl | htail
    · refine foldUnion_preserves_eq t _ hwf2 hbt ij.1 ij.2 ?_
      rw [hroots ij.1, hroots ij.2, if_pos ⟨hov, rfl⟩]
      by_cases hc : rootOf p ij.2 = rootOf p ij.1
      · rw [if_pos ⟨hov, hc⟩]
      · rw [if_neg (fun hcontra => hc hcontra.2)]
    · exact ih _ hwf2 hbt ij htail hov

theorem foldUnion_sound {n : ℕ} {images : List ImageElement} {tol : ℚ}
    (hn : n = images.length) :
    ∀ (L : List (ℕ × ℕ)) (p : List ℕ), UFWF n p →
      (∀ ab ∈ L, ab.1 < n ∧ ab.2 < n) →
      (∀ a b, a < n → b < n → rootOf p a = rootOf p b → Connected images tol a b) →
      ∀ a b, a < n → b < n →
        rootOf (L.foldl (unionStep images tol) p) a =
          rootOf (L.foldl (unionStep images tol) p) b →
        Connected images tol a b := by
  intro L
  induction L with
  | nil => intro p _ _ hinv a b ha hb hab; exact hinv a b ha hb hab
  | cons hd t ih =>
    intro p hwf hb hinv a b ha hbn hab
    have hh := hb hd (List.mem_cons_self hd t)
    obtain ⟨hwf2, hroots⟩ := @unionStep_cases _ images tol _ _ hwf hh.1 hh.2
    refine ih _ hwf2 (fun ab hab2 => hb ab (List.mem_cons_of_mem hd hab2)) ?_ a b ha hbn hab
    intro x y hx hy hxy
    rw [hroots x, hroots y] at hxy
    by_cases hcx : bboxesOverlap (images.getD hd.1 default).bbox
        (images.getD hd.2 default).bbox tol = true ∧ rootOf p x = rootOf p hd.1
    · rw [if_pos hcx] at hxy
      have hedge : Connected images tol hd.1 hd.2 :=
        Relation.EqvGen.rel _ _ ⟨hn ▸ hh.1, hn ▸ hh.2, hcx.1⟩
      have hxc : Connected images tol x hd.1 := hinv x hd.1 hx hh.1 hcx.2
      by_cases hcy : bboxesOverlap (images.getD hd.1 default).bbox
          (images.getD hd.2 default).bbox tol = true ∧ rootOf p y = rootOf p hd.1
      · rw [if_pos hcy] at hxy
        have hyc : Connected images tol y hd.1 := hinv y hd.1 hy hh.1 hcy.2
        exact Relation.EqvGen.trans _ _ _ hxc (Relation.EqvGen.symm _ _ hyc)
      · rw [if_neg hcy] at hxy
        have hyc : Connected images tol hd.2 y := hinv hd.2 y hh.2 hy hxy
        exact Relation.EqvGen.trans _ _ _ hxc (Relation.EqvGen.trans _ _ _ hedge hyc)
    · rw [if_neg hcx] at hxy
      by_cases hcy : bboxesOverlap (images.getD hd.1 default).bbox
          (images.getD hd.2 default).bbox tol = true ∧ rootOf p y = rootOf p hd.1
      · rw [if_pos hcy] at hxy
        have hedge : Connected images tol hd.1 hd.2 :=
          Relation.EqvGen.rel _ _ ⟨hn ▸ hh.1, hn ▸ hh.2, hcy.1⟩
        have hxc : Connected images tol x hd.2 := hinv x hd.2 hx hh.2 hxy
        have hyc : Connected images tol y hd.1 := hinv y hd.1 hy hh.1 hcy.2
        exact Relation.EqvGen.trans _ _ _ hxc (Relation.EqvGen.trans _ _ _
          (Relation.EqvGen.symm _ _ hedge) (Relation.EqvGen.symm _ _ hyc))
      · rw [if_neg hcy] at hxy
        exact hinv x y hx hy hxy

end Typhoon

namespace Typhoon

theorem mem_pairsUpTo {n i j : ℕ} : (i, j) ∈ pairsUpTo n ↔ i < j ∧ j < n := by
  unfold pairsUpTo
  simp only [List.mem_flatMap, List.mem_map, List.mem_filter, List.mem_range,
    decide_eq_true_eq, Prod.mk.injEq]
  constructor
  · rintro ⟨a, ha, b, ⟨hbn, hab⟩, rfl, rfl⟩
    exact ⟨hab, hbn⟩
  · rintro ⟨hij, hjn⟩
    exact ⟨i, lt_trans hij hjn, j, ⟨hjn, hij⟩, rfl, rfl⟩

theorem getD_range {n a : ℕ} : (List.range n).getD a a = a := by
  rcases lt_or_ge a n with h | h
  · rw [List.getD_eq_getElem _ _ (by rwa [List.length_range])]
    simp
  · exact isRoot_of_ge (by rwa [List.length_range])

theorem ufwf_range (n : ℕ) : UFWF n (List.range n) := by
  refine ⟨List.length_range n, ?_, ?_⟩
  · intro i hi
    rw [getD_range]
    exact hi
  · intro i _
    exact ⟨[i], i, UFPath.root i getD_range⟩

theorem rootOf_range {n a : ℕ} : rootOf (List.range n) a = a :=
  rootOf_eq (ufwf_range n) (UFPath.root a getD_range)

theorem bboxesOverlap_comm (b1 b2 : BoundingBox) (tol : ℚ) :
    bboxesOverlap b1 b2 tol = bboxesOverlap b2 b1 tol := by
  unfold bboxesOverlap
  rw [max_comm b1.x0 b2.x0, min_comm b1.x1 b2.x1, max_comm b1.y0 b2.y0, min_comm b1.y1 b2.y1]

theorem pairsUpTo_bounds {n : ℕ} : ∀ ab ∈ pairsUpTo n, ab.1 < n ∧ ab.2 < n := by
  intro ab hab
  have : (ab.1, ab.2) ∈ pairsUpTo n := hab
  rw [mem_pairsUpTo] at this
  exact ⟨lt_trans this.1 this.2, this.2⟩

/-- Well-formedness of the union loop's final parent list. -/
theorem mergedParent_wf (images : List ImageElement) (tol : ℚ) :
    UFWF images.length (mergedParent images tol) := by
  unfold mergedParent
  exact foldUnion_wf _ _ (ufwf_range _) pairsUpTo_bounds

/-- Connected indices end with equal roots (completeness of the loop). -/
theorem mergedParent_conn_eq (images : List ImageElement) (tol : ℚ)
    {i j : ℕ} (hconn : Connected images tol i j) :
    rootOf (mergedParent images tol) i = rootOf (mergedParent images tol) j := by
  induction hconn with
  | rel x y hxy =>
    obtain ⟨hx, hy, hov⟩ := hxy
    rcases lt_trichotomy x y with hlt | heq | hgt
    · exact foldUnion_edge (pairsUpTo images.length) _ (ufwf_range _) pairsUpTo_bounds
        (x, y) (mem_pairsUpTo.mpr ⟨hlt, hy⟩) hov
    · rw [heq]
    · have hov2 : bboxesOverlap (images.getD y default).bbox
          (images.getD x default).bbox tol = true := by
        rw [bboxesOverlap_comm]
        exact hov
      exact (foldUnion_edge (pairsUpTo images.length) _ (ufwf_range _) pairsUpTo_bounds
        (y, x) (mem_pairsUpTo.mpr ⟨hgt, hx⟩) hov2).symm
  | refl x => rfl
  | symm x y _ ih => exact ih.symm
  | trans x y z _ _ ih1 ih2 => exact ih1.trans ih2

/-- The union loop computes exactly chain connectivity: two in-range
    indices get the same root iff they are connected by a chain of
    overlapping pairs. -/
theorem mergedParent_connected (images : List ImageElement) (tol : ℚ)
    {i j : ℕ} (hi : i < images.length) (hj : j < images.length) :
    rootOf (mergedParent images tol) i = rootOf (mergedParent images tol) j ↔
      Connected images tol i j := by
  constructor
  · intro heq
    refine foldUnion_sound rfl (pairsUpTo images.length) _ (ufwf_range _)
      pairsUpTo_bounds ?_ i j hi hj heq
    intro a b _ _ hab
    rw [rootOf_range, rootOf_range] at hab
    rw [hab]
    exact Relation.EqvGen.refl b
  · exact mergedParent_conn_eq images tol

end Typhoon

namespace Typhoon

/-- The grouping loop equals a pure fold keyed by the (invariant) root
    function of the parent list it starts from. -/
theorem buildGroups_eq {n : ℕ} {p : List ℕ} (hwf : UFWF n p) :
    buildGroups p n =
      (List.range n).foldl (fun gs i => addToGroups gs (rootOf p i) i) [] := by
  unfold buildGroups
  suffices h : ∀ (L : List ℕ) (gs : List (ℕ × List ℕ)) (p2 : List ℕ), UFWF n p2 →
      (∀ j, rootOf p2 j = rootOf p j) →
      (L.foldl (fun st i => (addToGroups st.1 (ufFind st.2 i).1 i, (ufFind st.2 i).2))
          (gs, p2)).1
        = L.foldl (fun gs i => addToGroups gs (rootOf p i) i) gs by
    exact h (List.range n) [] p hwf (fun _ => rfl)
  intro L
  induction L with
  | nil => intro gs p2 _ _; rfl
  | cons hd t ih =>
    intro gs p2 hwf2 hroots
    simp only [List.foldl_cons]
    obtain ⟨hf1, hwfF, hrootsF⟩ := ufFind_spec hwf2 hd
    rw [hf1, hroots hd]
    exact ih _ _ hwfF (fun j => (hrootsF j).trans (hroots j))

theorem groupGet_nil (r : ℕ) : groupGet [] r = [] := rfl

theorem groupGet_cons (g : ℕ × List ℕ) (gs : List (ℕ × List ℕ)) (r : ℕ) :
    groupGet (g :: gs) r = if g.1 = r then g.2 else groupGet gs r := rfl

theorem groupGet_pair (a : ℕ) (l : List ℕ) (gs : List (ℕ × List ℕ)) (r : ℕ) :
    groupGet ((a, l) :: gs) r = if a = r then l else groupGet gs r := rfl

theorem groupGet_addToGroups (r i r' : ℕ) : ∀ (gs : List (ℕ × List ℕ)),
    groupGet (addToGroups gs r i) r' =
      if r' = r then groupGet gs r ++ [i] else groupGet gs r' := by
  intro gs
  induction gs with
  | nil =>
    simp only [addToGroups, groupGet_pair, groupGet_nil]
    by_cases h : r' = r
    · rw [if_pos h.symm, if_pos h, List.nil_append]
    · rw [if_neg (fun he => h he.symm), if_neg h]
  | cons g rest ih =>
    simp only [addToGroups]
    by_cases hg : g.1 = r
    · rw [if_pos hg, groupGet_pair]
      by_cases hg' : g.1 = r'
      · rw [if_pos hg', if_pos (hg'.symm.trans hg), groupGet_cons, if_pos hg]
      · rw [if_neg hg', if_neg (fun he => hg' (hg.trans he.symm)), groupGet_cons,
          if_neg hg']
    · rw [if_neg hg, groupGet_cons]
      by_cases hg' : g.1 = r'
      · rw [if_pos hg', if_neg (fun he => hg (hg'.trans he)), groupGet_cons, if_pos hg']
      · rw [if_neg hg', ih]
        by_cases hr : r' = r
        · rw [if_pos hr, if_pos hr, groupGet_cons, if_neg hg]
        · rw [if_neg hr, if_neg hr, groupGet_cons, if_neg hg']

theorem addToGroups_keys (r i : ℕ) : ∀ (gs : List (ℕ × List ℕ)),
    (addToGroups gs r i).map Prod.fst =
      if r ∈ gs.map Prod.fst then gs.map Prod.fst else gs.map Prod.fst ++ [r] := by
  intro gs
  induction gs with
  | nil => simp [addToGroups]
  | cons g rest ih =>
    simp only [addToGroups]
    by_cases hg : g.1 = r
    · rw [if_pos hg]
      simp only [List.map_cons]
      rw [if_pos (by rw [hg] at *; exact List.mem_cons_self r _)]
    · rw [if_neg hg]
      simp only [List.map_cons, ih]
      by_cases hr : r ∈ rest.map Prod.fst
      · rw [if_pos hr, if_pos (List.mem_cons_of_mem _ hr)]
      · rw [if_neg hr,
          if_neg (by rw [List.mem_cons]; push_neg; exact ⟨fun he => hg he.symm, hr⟩)]
        rfl

theorem entry_eq_groupGet : ∀ (gs : List (ℕ × List ℕ)),
    (gs.map Prod.fst).Nodup → ∀ g ∈ gs, g.2 = groupGet gs g.1 := by
  intro gs
  induction gs with
  | nil => intro _ g hg; cases hg
  | cons g0 rest ih =>
    intro hnd g hg
    rw [List.map_cons, List.nodup_cons] at hnd
    rcases List.mem_cons.mp hg with rfl | hmem
    · rw [groupGet_cons, if_pos rfl]
    · have hne : g0.1 ≠ g.1 := by
        intro he
        exact hnd.1 (he ▸ List.mem_map_of_mem Prod.fst hmem)
      rw [groupGet_cons, if_neg hne]
      exact ih hnd.2 g hmem

theorem kfold_groupGet (k : ℕ → ℕ) :
    ∀ (L : List ℕ) (gs : List (ℕ × List ℕ)) (r : ℕ),
      groupGet (L.foldl (fun gs i => addToGroups gs (k i) i) gs) r =
        groupGet gs r ++ L.filter (fun x => decide (k x = r)) := by
  intro L
  induction L with
  | nil => intro gs r; simp
  | cons hd t ih =>
    intro gs r
    simp only [List.foldl_cons, List.filter_cons]
    rw [ih, groupGet_addToGroups]
    by_cases hc : k hd = r
    · rw [if_pos hc.symm, hc]
      simp [List.append_assoc]
    · rw [if_neg (fun he => hc he.symm)]
      simp only [decide_eq_true_eq]
      rw [if_neg hc]

theorem kfold_keys_nodup (k : ℕ → ℕ) :
    ∀ (L : List ℕ) (gs : List (ℕ × List ℕ)), (gs.map Prod.fst).Nodup →
      ((L.foldl (fun gs i => addToGroups gs (k i) i) gs).map Prod.fst).Nodup := by
  intro L
  induction L with
  | nil => intro gs h; exact h
  | cons hd t ih =>
    intro gs h
    simp only [List.foldl_cons]
    refine ih _ ?_
    rw [addToGroups_keys]
    by_cases hc : k hd ∈ gs.map Prod.fst
    · rw [if_pos hc]; exact h
    · rw [if_neg hc]
      simp [List.nodup_append, h, hc]

theorem kfold_keys_mono (k : ℕ → ℕ) :
    ∀ (L : List ℕ) (gs : List (ℕ × List ℕ)) (r : ℕ), r ∈ gs.map Prod.fst →
      r ∈ (L.foldl (fun gs i => addToGroups gs (k i) i) gs).map Prod.fst := by
  intro L
  induction L with
  | nil => intro gs r h; exact h
  | cons hd t ih =>
    intro gs r h
    simp only [List.foldl_cons]
    refine ih _ r ?_
    rw [addToGroups_keys]
    by_cases hc : k hd ∈ gs.map Prod.fst
    · rw [if_pos hc]; exact h
    · rw [if_neg hc]; exact List.mem_append_left _ h

theorem kfold_keys_of_mem (k : ℕ → ℕ) :
    ∀ (L : List ℕ) (gs : List (ℕ × List ℕ)) (i : ℕ), i ∈ L →
      k i ∈ (L.foldl (fun gs i => addToGroups gs (k i) i) gs).map Prod.fst := by
  intro L
  induction L with
  | nil => intro gs i h; cases h
  | cons hd t ih =>
    intro gs i h
    simp only [List.foldl_cons]
    rcases List.mem_cons.mp h with rfl | hmem
    · refine kfold_keys_mono k t _ (k i) ?_
      rw [addToGroups_keys]
      by_cases hc : k i ∈ gs.map Prod.fst
      · rw [if_pos hc]; exact hc
      · rw [if_neg hc]
        exact List.mem_append_right _ (List.mem_singleton.mpr rfl)
    · exact ih _ i hmem

theorem kfold_keys_sub (k : ℕ → ℕ) :
    ∀ (L : List ℕ) (gs : List (ℕ × List ℕ)) (r : ℕ),
      r ∈ (L.foldl (fun gs i => addToGroups gs (k i) i) gs).map Prod.fst →
      r ∈ gs.map Prod.fst ∨ ∃ i ∈ L, k i = r := by
  intro L
  induction L with
  | nil => intro gs r h; exact Or.inl h
  | cons hd t ih =>
    intro gs r h
    simp only [List.foldl_cons] at h
    rcases ih _ r h with hin | ⟨i, hi, hk⟩
    · rw [addToGroups_keys] at hin
      by_cases hc : k hd ∈ gs.map Prod.fst
      · rw [if_pos hc] at hin
        exact Or.inl hin
      · rw [if_neg hc] at hin
        rcases List.mem_append.mp hin with hold | hnew
        · exact Or.inl hold
        · exact Or.inr ⟨hd, List.mem_cons_self hd t, (List.mem_singleton.mp hnew).symm⟩
    · exact Or.inr ⟨i, List.mem_cons_of_mem hd hi, hk⟩

end Typhoon

namespace Typhoon

/-- Every produced cluster is the sorted list of in-range indices with some
    common root, and is nonempty. -/
theorem clusters_spec (images : List ImageElement) (tol : ℚ) :
    ∀ c ∈ clusters images tol,
      (∃ r, c = (List.range images.length).filter
          (fun x => decide (rootOf (mergedParent images tol) x = r))) ∧ c ≠ [] := by
  intro c hc
  unfold clusters at hc
  rw [buildGroups_eq (mergedParent_wf images tol), List.mem_map] at hc
  obtain ⟨g, hg, rfl⟩ := hc
  have hnd := kfold_keys_nodup (rootOf (mergedParent images tol))
    (List.range images.length) [] (by simp)
  have hge := entry_eq_groupGet _ hnd g hg
  rw [kfold_groupGet, groupGet_nil, List.nil_append] at hge
  refine ⟨⟨g.1, hge⟩, ?_⟩
  have hkey : g.1 ∈ ((List.range images.length).foldl
      (fun gs i => addToGroups gs (rootOf (mergedParent images tol) i) i) []).map
        Prod.fst :=
    List.mem_map_of_mem Prod.fst hg
  rcases kfold_keys_sub _ _ _ _ hkey with hin | ⟨i, hi, hk⟩
  · exact absurd hin (by simp)
  · intro hnil
    have hmem : i ∈ (List.range images.length).filter
        (fun x => decide (rootOf (mergedParent images tol) x = g.1)) :=
      List.mem_filter.mpr ⟨hi, by simp [hk]⟩
    rw [← hge, hnil] at hmem
    cases hmem

/-- Every in-range index lands in some cluster. -/
theorem clusters_cover (images : List ImageElement) (tol : ℚ) (i : ℕ)
    (hi : i < images.length) :
    ∃ c ∈ clusters images tol, i ∈ c := by
  have hkey := kfold_keys_of_mem (rootOf (mergedParent images tol))
    (List.range images.length) [] i (List.mem_range.mpr hi)
  rw [List.mem_map] at hkey
  obtain ⟨g, hg, hgk⟩ := hkey
  refine ⟨g.2, ?_, ?_⟩
  · unfold clusters
    rw [buildGroups_eq (mergedParent_wf images tol)]
    exact List.mem_map_of_mem _ hg
  · have hnd := kfold_keys_nodup (rootOf (mergedParent images tol))
      (List.range images.length) [] (by simp)
    have hge := entry_eq_groupGet _ hnd g hg
    rw [kfold_groupGet, groupGet_nil, List.nil_append] at hge
    rw [hge]
    exact List.mem_filter.mpr ⟨List.mem_range.mpr hi, by simp [hgk]⟩

/-- Distinct clusters are disjoint. -/
theorem clusters_disjoint (images : List ImageElement) (tol : ℚ) :
    ∀ c1 ∈ clusters images tol, ∀ c2 ∈ clusters images tol,
      c1 ≠ c2 → ∀ x ∈ c1, x ∉ c2 := by
  intro c1 h1 c2 h2 hne x hx1 hx2
  obtain ⟨⟨r1, he1⟩, -⟩ := clusters_spec images tol c1 h1
  obtain ⟨⟨r2, he2⟩, -⟩ := clusters_spec images tol c2 h2
  rw [he1, List.mem_filter] at hx1
  rw [he2, List.mem_filter] at hx2
  have hr1 := of_decide_eq_true hx1.2
  have hr2 := of_decide_eq_true hx2.2
  exact hne (he1.trans (by rw [hr1.symm.trans hr2, ← he2]))

/-- Each cluster lists its member indices in increasing order. -/
theorem clusters_sorted (images : List ImageElement) (tol : ℚ) :
    ∀ c ∈ clusters images tol, c.Pairwise (· < ·) := by
  intro c hc
  obtain ⟨⟨r, he⟩, -⟩ := clusters_spec images tol c hc
  rw [he]
  exact (List.pairwise_lt_range _).filter _

/-- Two in-range indices share a cluster exactly when they are
    chain-connected by pairwise overlaps. -/
theorem clusters_iff (images : List ImageElement) (tol : ℚ) (i j : ℕ)
    (hi : i < images.length) (hj : j < images.length) :
    (∃ c ∈ clusters images tol, i ∈ c ∧ j ∈ c) ↔ Connected images tol i j := by
  constructor
  · rintro ⟨c, hc, hic, hjc⟩
    obtain ⟨⟨r, he⟩, -⟩ := clusters_spec images tol c hc
    rw [he, List.mem_filter] at hic hjc
    have h1 := of_decide_eq_true hic.2
    have h2 := of_decide_eq_true hjc.2
    exact (mergedParent_connected images tol hi hj).mp (h1.trans h2.symm)
  · intro hconn
    have hroot := (mergedParent_connected images tol hi hj).mpr hconn
    obtain ⟨c, hc, hic⟩ := clusters_cover images tol i hi
    obtain ⟨⟨r, he⟩, -⟩ := clusters_spec images tol c hc
    refine ⟨c, hc, hic, ?_⟩
    rw [he, List.mem_filter] at hic
    have h1 := of_decide_eq_true hic.2
    rw [he, List.mem_filter]
    exact ⟨List.mem_range.mpr hj, decide_eq_true (by rw [← hroot]; exact h1)⟩

end Typhoon

namespace Typhoon

theorem joinPlus_fold : ∀ (t : List String) (a : String),
    t.foldl (fun s x => s ++ "+" ++ x) a = joinPlus (a :: t) := by
  intro t
  induction t with
  | nil => intro a; rfl
  | cons y u ih =>
    intro a
    simp only [List.foldl_cons]
    rw [ih (a ++ "+" ++ y)]
    cases u with
    | nil => rfl
    | cons z v =>
      simp only [joinPlus, String.append_assoc]

/-- The per-group fold computes each component independently. -/
theorem mergeFold_components (images : List ImageElement) :
    ∀ (rest : List ℕ) (acc : ImageElement),
      rest.foldl
        (fun acc idx =>
          let bbox := (images.getD idx default).bbox
          { name := acc.name ++ "+" ++ (images.getD idx default).name
            bbox := { x0 := min acc.bbox.x0 bbox.x0, y0 := min acc.bbox.y0 bbox.y0,
                      x1 := max acc.bbox.x1 bbox.x1, y1 := max acc.bbox.y1 bbox.y1 } })
        acc
      = { name := rest.foldl (fun s idx => s ++ "+" ++ (images.getD idx default).name)
            acc.name,
          bbox := { x0 := rest.foldl (fun q idx => min q (images.getD idx default).bbox.x0)
                      acc.bbox.x0,
                    y0 := rest.foldl (fun q idx => min q (images.getD idx default).bbox.y0)
                      acc.bbox.y0,
                    x1 := rest.foldl (fun q idx => max q (images.getD idx default).bbox.x1)
                      acc.bbox.x1,
                    y1 := rest.foldl (fun q idx => max q (images.getD idx default).bbox.y1)
                      acc.bbox.y1 } } := by
  intro rest
  induction rest with
  | nil => intro acc; rfl
  | cons hd t ih =>
    intro acc
    simp only [List.foldl_cons]
    rw [ih]

/-- `mergeGroup` on a nonempty index list is the `+`-joined name with the
    envelope bounding box over the members. -/
theorem mergeGroup_eq (images : List ImageElement) (i0 : ℕ) (rest : List ℕ) :
    mergeGroup images (i0 :: rest) =
      { name := joinPlus ((i0 :: rest).map (fun idx => (images.getD idx default).name)),
        bbox := { x0 := minQl ((i0 :: rest).map
                    (fun idx => (images.getD idx default).bbox.x0)),
                  y0 := minQl ((i0 :: rest).map
                    (fun idx => (images.getD idx default).bbox.y0)),
                  x1 := maxQl ((i0 :: rest).map
                    (fun idx => (images.getD idx default).bbox.x1)),
                  y1 := maxQl ((i0 :: rest).map
                    (fun idx => (images.getD idx default).bbox.y1)) } } := by
  show rest.foldl
      (fun acc idx =>
        let bbox := (images.getD idx default).bbox
        { name := acc.name ++ "+" ++ (images.getD idx default).name
          bbox := { x0 := min acc.bbox.x0 bbox.x0, y0 := min acc.bbox.y0 bbox.y0,
                    x1 := max acc.bbox.x1 bbox.x1, y1 := max acc.bbox.y1 bbox.y1 } })
      (images.getD i0 default) = _
  rw [mergeFold_components]
  have hname : rest.foldl (fun s idx => s ++ "+" ++ (images.getD idx default).name)
      (images.getD i0 default).name
      = joinPlus ((i0 :: rest).map (fun idx => (images.getD idx default).name)) := by
    rw [List.map_cons, ← joinPlus_fold, List.foldl_map]
  have hx0 : rest.foldl (fun q idx => min q (images.getD idx default).bbox.x0)
      (images.getD i0 default).bbox.x0
      = minQl ((i0 :: rest).map (fun idx => (images.getD idx default).bbox.x0)) := by
    rw [List.map_cons]
    show _ = (rest.map (fun idx => (images.getD idx default).bbox.x0)).foldl min
      (images.getD i0 default).bbox.x0
    rw [List.foldl_map]
  have hy0 : rest.foldl (fun q idx => min q (images.getD idx default).bbox.y0)
      (images.getD i0 default).bbox.y0
      = minQl ((i0 :: rest).map (fun idx => (images.getD idx default).bbox.y0)) := by
    rw [List.map_cons]
    show _ = (rest.map (fun idx => (images.getD idx default).bbox.y0)).foldl min
      (images.getD i0 default).bbox.y0
    rw [List.foldl_map]
  have hx1 : rest.foldl (fun q idx => max q (images.getD idx default).bbox.x1)
      (images.getD i0 default).bbox.x1
      = maxQl ((i0 :: rest).map (fun idx => (images.getD idx default).bbox.x1)) := by
    rw [List.map_cons]
    show _ = (rest.map (fun idx => (images.getD idx default).bbox.x1)).foldl max
      (images.getD i0 default).bbox.x1
    rw [List.foldl_map]
  have hy1 : rest.foldl (fun q idx => max q (images.getD idx default).bbox.y1)
      (images.getD i0 default).bbox.y1
      = maxQl ((i0 :: rest).map (fun idx => (images.getD idx default).bbox.y1)) := by
    rw [List.map_cons]
    show _ = (rest.map (fun idx => (images.getD idx default).bbox.y1)).foldl max
      (images.getD i0 default).bbox.y1
    rw [List.foldl_map]
  rw [hname, hx0, hy0, hx1, hy1]

/-- `_merge_image_elements` maps the envelope merge over the clusters. -/
theorem mergeImageElements_eq (images : List ImageElement) (tol : ℚ) :
    mergeImageElements images tol = (clusters images tol).map (fun c =>
      { name := joinPlus (c.map (fun idx => (images.getD idx default).name)),
        bbox := { x0 := minQl (c.map (fun idx => (images.getD idx default).bbox.x0)),
                  y0 := minQl (c.map (fun idx => (images.getD idx default).bbox.y0)),
                  x1 := maxQl (c.map (fun idx => (images.getD idx default).bbox.x1)),
                  y1 := maxQl (c.map (fun idx => (images.getD idx default).bbox.y1)) } }) := by
  have hmm : (clusters images tol).map (fun c =>
      ({ name := joinPlus (c.map (fun idx => (images.getD idx default).name)),
         bbox := { x0 := minQl (c.map (fun idx => (images.getD idx default).bbox.x0)),
                   y0 := minQl (c.map (fun idx => (images.getD idx default).bbox.y0)),
                   x1 := maxQl (c.map (fun idx => (images.getD idx default).bbox.x1)),
                   y1 := maxQl (c.map (fun idx => (images.getD idx default).bbox.y1)) } }
        : ImageElement))
      = (buildGroups (mergedParent images tol) images.length).map (fun g =>
          { name := joinPlus (g.2.map (fun idx => (images.getD idx default).name)),
            bbox := { x0 := minQl (g.2.map (fun idx => (images.getD idx default).bbox.x0)),
                      y0 := minQl (g.2.map (fun idx => (images.getD idx default).bbox.y0)),
                      x1 := maxQl (g.2.map (fun idx => (images.getD idx default).bbox.x1)),
                      y1 := maxQl (g.2.map (fun idx => (images.getD idx default).bbox.y1)) } }) := by
    unfold clusters
    rw [List.map_map]
    rfl
  rw [hmm]
  unfold mergeImageElements
  apply List.map_congr_left
  intro g hg
  have hcl : g.2 ∈ clusters images tol := by
    unfold clusters
    exact List.mem_map_of_mem _ hg
  obtain ⟨-, hne⟩ := clusters_spec images tol g.2 hcl
  cases hc : g.2 with
  | nil => exact absurd hc hne
  | cons i0 rest => rw [mergeGroup_eq]

end Typhoon

namespace Typhoon

/-- C4: In `_merge_image_elements` with tolerance `t`, two in-range image
    indices end in the same cluster iff they are connected by a chain of
    pairs whose horizontal gap `max(0, max(x0s) - min(x1s))` and the
    analogous vertical gap are both at most `t`; the output reports each
    cluster as a single element whose bbox is the coordinate-wise min/max
    envelope of the member boxes and whose name is the member names joined
    by `+` in index order (clusters are nonempty, index-ordered, and
    pairwise disjoint). Concretely, boxes `(0,0,10,10)` and
    `(10.2,0,20,10)` merge into one element spanning `(0,0,20,10)` at
    tolerance `0.5`, and remain two separate elements at tolerance
    `0.1`. -/
theorem c4_merge_clusters :
    (∀ (images : List ImageElement) (tol : ℚ) (i j : ℕ),
        i < images.length → j < images.length →
        ((∃ c ∈ clusters images tol, i ∈ c ∧ j ∈ c) ↔ Connected images tol i j)) ∧
    (∀ (images : List ImageElement) (tol : ℚ),
        mergeImageElements images tol = (clusters images tol).map (fun c =>
          { name := joinPlus (c.map (fun idx => (images.getD idx default).name)),
            bbox := { x0 := minQl (c.map (fun idx => (images.getD idx default).bbox.x0)),
                      y0 := minQl (c.map (fun idx => (images.getD idx default).bbox.y0)),
                      x1 := maxQl (c.map (fun idx => (images.getD idx default).bbox.x1)),
                      y1 := maxQl (c.map (fun idx => (images.getD idx default).bbox.y1)) } })) ∧
    (∀ (images : List ImageElement) (tol : ℚ), ∀ c ∈ clusters images tol,
        c ≠ [] ∧ c.Pairwise (· < ·)) ∧
    (∀ (images : List ImageElement) (tol : ℚ),
        ∀ c1 ∈ clusters images tol, ∀ c2 ∈ clusters images tol, c1 ≠ c2 →
          ∀ x ∈ c1, x ∉ c2) ∧
    mergeImageElements
        [⟨"img1", ⟨0, 0, 10, 10⟩⟩, ⟨"img2", ⟨Rat.divInt 51 5, 0, 20, 10⟩⟩]
        (Rat.divInt 1 2)
      = [⟨"img1+img2", ⟨0, 0, 20, 10⟩⟩] ∧
    mergeImageElements
        [⟨"img1", ⟨0, 0, 10, 10⟩⟩, ⟨"img2", ⟨Rat.divInt 51 5, 0, 20, 10⟩⟩]
        (Rat.divInt 1 10)
      = [⟨"img1", ⟨0, 0, 10, 10⟩⟩, ⟨"img2", ⟨Rat.divInt 51 5, 0, 20, 10⟩⟩] := by
  refine ⟨fun images tol i j hi hj => clusters_iff images tol i j hi hj,
    mergeImageElements_eq,
    fun images tol c hc => ⟨(clusters_spec images tol c hc).2,
      clusters_sorted images tol c hc⟩,
    clusters_disjoint,
    of_decide_eq_true (by with_unfolding_all rfl),
    of_decide_eq_true (by with_unfolding_all rfl)⟩

/-- Witness for C4 at the spec's concrete two-box page: indices 0 and 1
    share a cluster at tolerance 1/2 iff they are chain-connected. -/
theorem c4_merge_clusters_witness :
    (∃ c ∈ clusters
        [⟨"img1", ⟨0, 0, 10, 10⟩⟩, ⟨"img2", ⟨Rat.divInt 51 5, 0, 20, 10⟩⟩]
        (Rat.divInt 1 2), 0 ∈ c ∧ 1 ∈ c) ↔
      Connected
        [⟨"img1", ⟨0, 0, 10, 10⟩⟩, ⟨"img2", ⟨Rat.divInt 51 5, 0, 20, 10⟩⟩]
        (Rat.divInt 1 2) 0 1 :=
  c4_merge_clusters.1
    [⟨"img1", ⟨0, 0, 10, 10⟩⟩, ⟨"img2", ⟨Rat.divInt 51 5, 0, 20, 10⟩⟩]
    (Rat.divInt 1 2) 0 1 (by decide) (by decide)

end Typhoon
